import Mathlib

/-!
Verification of the EGG 273A potentiostat method DSL and its execution
engine.  The definitions below are a shallow embedding of the Python
source (`src/main_Back.py`; `src/Example.py` holds a standalone copy of
the parser).  Strings are modelled as Lean `String`/`List Char`, Python
floats as `ℚ`, Python `int` as `ℤ`, and raised exceptions as `Except`
values.  Comments cite the source lines each definition embeds.
-/

namespace Potentiostat

/-- Word characters of the regex class `\w` as used by the patterns in
`parse_process` (ASCII letters, digits and underscore; the method
sources are ASCII). -/
def isWordChar (c : Char) : Bool := c.isAlphanum || c = '_'

/-- One step of the scanning loop of `split_commands`
(src/main_Back.py lines 374-391): `parens` is the signed parenthesis
counter (`'('` increments, `')'` decrements, before the comma test),
`cur` holds the characters of the current segment in reverse order.
A comma seen while the counter is zero closes the current segment;
at end of input the final segment is emitted only when non-empty. -/
def splitGo : Int → List Char → List Char → List String
  | _, cur, [] => if cur = [] then [] else [String.mk cur.reverse]
  | parens, cur, c :: rest =>
    let parens2 := if c = '(' then parens + 1 else if c = ')' then parens - 1 else parens
    if c = ',' ∧ parens2 = 0 then String.mk cur.reverse :: splitGo parens2 [] rest
    else splitGo parens2 (c :: cur) rest

/-- `split_commands` (src/main_Back.py lines 374-391 and src/Example.py
lines 5-22): split on commas at parenthesis depth 0 only. -/
def split_commands (cmd_str : String) : List String := splitGo 0 [] cmd_str.data

/-- Signed parenthesis count of a character list: occurrences of `'('`
minus occurrences of `')'`.  Used to state where `split_commands`
splits. -/
def netDepth : List Char → Int
  | [] => 0
  | c :: rest => (if c = '(' then 1 else if c = ')' then -1 else 0) + netDepth rest

/-- The literal `REPEAT(` that heads the repeat-block pattern
(src/main_Back.py line 395). -/
def repeatLit : List Char := ['R', 'E', 'P', 'E', 'A', 'T', '(']

/-- The literal `FOR_RANGEV(` that heads the for-block pattern
(src/main_Back.py line 400). -/
def forLit : List Char := ['F', 'O', 'R', '_', 'R', 'A', 'N', 'G', 'E', 'V', '(']

/-- Match a literal character sequence at the head of the input,
returning the remainder on success. -/
def stripLit : List Char → List Char → Option (List Char)
  | [], s => some s
  | _ :: _, [] => none
  | p :: ps, c :: cs => if c = p then stripLit ps cs else none

/-- Content before the first occurrence of `stop`, together with the
remainder after it; `none` if `stop` does not occur.  This is the
behaviour of a regex group `[^x]*` followed by the literal `x` (the
parser uses it for `([^,]+),`, `([^)]+)\)`, `(.*?)\}` and the
`pair.split('=', 1)` of OUTPUT pairs). -/
def takeUntilChar : Char → List Char → Option (List Char × List Char)
  | _, [] => none
  | stop, c :: rest =>
    if c = stop then some ([], rest)
    else
      match takeUntilChar stop rest with
      | some (a, b) => some (c :: a, b)
      | none => none

/-- The non-greedy body match `(.*?)\}(?=:|$)` of the REPEAT pattern
(src/main_Back.py line 395): the body ends at the first `}` whose next
character is `:` or which ends the input; the lookahead consumes
nothing, so the remainder starts right after that `}`. -/
def findBody : List Char → Option (List Char × List Char)
  | [] => none
  | c :: rest =>
    if c = '\x7d' ∧ (rest = [] ∨ rest.head? = some ':') then some ([], rest)
    else
      match findBody rest with
      | some (body, tail) => some (c :: body, tail)
      | none => none

/-- Try to match `REPEAT\((\w+)\)\{(.*?)\}(?=:|$)` at the head of the
input (src/main_Back.py line 395), returning the repeat variable, the
raw body and the remainder after the match. -/
def matchRepeatAt (s : List Char) : Option (String × String × List Char) :=
  match stripLit repeatLit s with
  | none => none
  | some r1 =>
    let w := r1.takeWhile isWordChar
    let r2 := r1.dropWhile isWordChar
    if w = [] then none
    else
      match r2 with
      | ')' :: '\x7b' :: r3 =>
        match findBody r3 with
        | some (body, tail) => some (String.mk w, String.mk body, tail)
        | none => none
      | _ => none

/-- The scanning loop of `re.findall` for the REPEAT pattern
(src/main_Back.py line 396): try the pattern at each position, resume
after a match, advance one character after a failure.  The fuel is an
upper bound on the number of positions; `parse_process` passes the
input length, which suffices because every match consumes at least one
character. -/
def findRepeatsGo : Nat → List Char → List (String × String)
  | 0, _ => []
  | _, [] => []
  | fuel + 1, c :: rest =>
    match matchRepeatAt (c :: rest) with
    | some (v, body, tail) => (v, body) :: findRepeatsGo fuel tail
    | none => findRepeatsGo fuel rest

/-- Try to match `FOR_RANGEV\(([^,]+),([^,]+),([^)]+)\)\{(.*?)\}` at
the head of the input (src/main_Back.py line 400): the three range
symbols run to the first comma, first comma and first closing
parenthesis respectively and must be non-empty; the body is the
non-greedy match up to the first `}`. -/
def matchForAt (s : List Char) : Option (String × String × String × String × List Char) :=
  match stripLit forLit s with
  | none => none
  | some r1 =>
    match takeUntilChar ',' r1 with
    | none => none
    | some (a, r2) =>
      if a = [] then none
      else
        match takeUntilChar ',' r2 with
        | none => none
        | some (b, r3) =>
          if b = [] then none
          else
            match takeUntilChar ')' r3 with
            | none => none
            | some (c, r4) =>
              if c = [] then none
              else
                match r4 with
                | '\x7b' :: r5 =>
                  match takeUntilChar '\x7d' r5 with
                  | some (body, tail) =>
                    some (String.mk a, String.mk b, String.mk c, String.mk body, tail)
                  | none => none
                | _ => none

/-- The scanning loop of `re.findall` for the FOR_RANGEV pattern
(src/main_Back.py line 400), with the same fuel convention as
`findRepeatsGo`. -/
def findForsGo : Nat → List Char → List (String × String × String × String)
  | 0, _ => []
  | _, [] => []
  | fuel + 1, c :: rest =>
    match matchForAt (c :: rest) with
    | some (a, b, st, body, tail) => (a, b, st, body) :: findForsGo fuel tail
    | none => findForsGo fuel rest

/-- Content before the last `)` of the input, `none` when no `)`
occurs.  This is the greedy group of `re.match(r'(\w+)\((.*)\)', cmd)`
(src/main_Back.py line 408): `(.*)` is greedy, so the final `)` of the
pattern binds to the last `)` of the string and trailing characters
after it are ignored. -/
def beforeLastParen (l : List Char) : Option (List Char) :=
  match l.reverse.dropWhile (fun c => !(c = ')')) with
  | [] => none
  | _ :: restRev => some restRev.reverse

/-- Try to match `(\w+)\((.*)\)` at the start of a command substring
(src/main_Back.py lines 408-412): a non-empty run of word characters,
then `(`, then everything up to the last `)`. -/
def matchCmd (cmd : String) : Option (String × String) :=
  let w := cmd.data.takeWhile isWordChar
  let r := cmd.data.dropWhile isWordChar
  if w = [] then none
  else
    match r with
    | '(' :: r2 =>
      match beforeLastParen r2 with
      | some param => some (String.mk w, String.mk param)
      | none => none
    | _ => none

/-- ASCII upper-casing of a command name (`cmatch.group(1).upper()`,
src/main_Back.py line 411; command names are ASCII). -/
def toUpperStr (s : String) : String := String.mk (s.data.map Char.toUpper)

/-- Parsed command, the tagged variant stored in the `commands` list:
`{"mean": p}`, `{"delay": p}` or `{"outputs": dict}`
(src/main_Back.py lines 414-425). -/
inductive Command where
  | mean (param : String)
  | delay (param : String)
  | outputs (pairs : List (String × String))
deriving DecidableEq, Repr

/-- One parsed FOR_RANGEV block (src/main_Back.py lines 427-432).  The
Python dict key `end` is spelled `end_` because `end` is a Lean
keyword. -/
structure ForLoop where
  start : String
  end_ : String
  step : String
  commands : List Command
deriving DecidableEq, Repr

/-- One parsed REPEAT block (src/main_Back.py lines 434-437). -/
structure RepeatBlock where
  repeats : String
  for_loops : List ForLoop
deriving DecidableEq, Repr

/-- A parsed program: the list returned by `parse_process`. -/
abbrev Program := List RepeatBlock

/-- Insertion into a Python dict rendered as an ordered association
list: assigning to an existing key updates its value in place,
otherwise the pair is appended (`outputs[key] = val`,
src/main_Back.py line 424). -/
def dictInsert (k v : String) (d : List (String × String)) : List (String × String) :=
  if d.any (fun p => p.1 == k) then d.map (fun p => if p.1 = k then (p.1, v) else p)
  else d ++ [(k, v)]

/-- Fold one OUTPUT piece into the outputs dict: pieces without `=`
are dropped, otherwise the piece is split at the first `=`
(src/main_Back.py lines 421-424). -/
def parsePair (d : List (String × String)) (pair : String) : List (String × String) :=
  match takeUntilChar '=' pair.data with
  | some (k, v) => dictInsert (String.mk k) (String.mk v) d
  | none => d

/-- The outputs dict of an OUTPUT command: split the argument on
top-level commas, then fold each `key=value` piece
(src/main_Back.py lines 419-424). -/
def parseOutputs (param : String) : List (String × String) :=
  (split_commands param).foldl parsePair []

/-- Parse one command substring (src/main_Back.py lines 407-425):
substrings not matching `NAME(args)` and command names other than
MEAN/DELAY/OUTPUT yield nothing. -/
def parseCmd (cmd : String) : Option Command :=
  match matchCmd cmd with
  | none => none
  | some (ty, param) =>
    let t := toUpperStr ty
    if t = "MEAN" then some (Command.mean param)
    else if t = "DELAY" then some (Command.delay param)
    else if t = "OUTPUT" then some (Command.outputs (parseOutputs param))
    else none

/-- Build a `ForLoop` from one FOR_RANGEV match
(src/main_Back.py lines 403-432). -/
def parseForLoop (fb : String × String × String × String) : ForLoop :=
  { start := fb.1, end_ := fb.2.1, step := fb.2.2.1,
    commands := (split_commands fb.2.2.2).filterMap parseCmd }

/-- Build a `RepeatBlock` from one REPEAT match
(src/main_Back.py lines 399-437). -/
def parseRepeatBlock (rb : String × String) : RepeatBlock :=
  { repeats := rb.1,
    for_loops := (findForsGo rb.2.data.length rb.2.data).map parseForLoop }

/-- Preprocessing of `parse_process` (src/main_Back.py line 394):
`s.replace(" ", "").replace("\n", "")` removes every space and every
newline and nothing else. -/
def stripSpaceNewline (s : String) : String :=
  String.mk (s.data.filter (fun c => !(c == ' ' || c == '\n')))

/-- `parse_process` (src/main_Back.py lines 393-439 and
src/Example.py lines 24-70): strip spaces and newlines, find every
REPEAT block, and within each body every FOR_RANGEV block and its
commands. -/
def parse_process (process_str : String) : Program :=
  let s := stripSpaceNewline process_str
  (findRepeatsGo s.data.length s.data).map parseRepeatBlock

/-! Value parsing.  The UI entry widgets hand back strings; the code
converts them with Python `int(...)` and `float(...)`.  The models
below follow Python's grammar for finite decimal literals: optional
surrounding whitespace, an optional sign, digit runs that may contain
single underscores between digits, and for floats an optional
fractional part and decimal exponent.  (The non-finite float literals
`inf`/`nan` have no rational counterpart and are outside the model.) -/

/-- Strip leading and trailing whitespace, as Python `str.strip()` and
the implicit stripping of `int()`/`float()` do. -/
def pyStrip (s : String) : String :=
  String.mk ((s.data.dropWhile Char.isWhitespace).reverse.dropWhile Char.isWhitespace).reverse

/-- Validity of the tail of a digit run: every character is a digit or
an underscore, underscores must follow a digit (`prevU` records that
the previous character was an underscore) and may not end the run —
Python's PEP 515 rule for numeric literals. -/
def digitsRest (prevU : Bool) : List Char → Bool
  | [] => !prevU
  | c :: rest =>
    if c = '_' then !prevU && digitsRest true rest
    else c.isDigit && digitsRest false rest

/-- Validity of a whole digit run: non-empty, starts with a digit,
underscores only between digits. -/
def digitsOk : List Char → Bool
  | [] => false
  | c :: rest => c.isDigit && digitsRest false rest

/-- Numeric value of a digit run, ignoring underscores. -/
def digitsVal (l : List Char) : Nat :=
  l.foldl (fun acc c => if c = '_' then acc else acc * 10 + (c.toNat - 48)) 0

/-- Digit count of a digit run, ignoring underscores. -/
def digitsLen (l : List Char) : Nat := (l.filter Char.isDigit).length

/-- Optional leading sign. -/
def signSplit : List Char → Int × List Char
  | [] => (1, [])
  | c :: rest => if c = '+' then (1, rest) else if c = '-' then (-1, rest) else (1, c :: rest)

/-- Python `int(s)`: strip, optional sign, digit run.  `none` models a
raised `ValueError`. -/
def pyInt? (s : String) : Option Int :=
  let sg := signSplit (pyStrip s).data
  if digitsOk sg.2 then some (sg.1 * digitsVal sg.2) else none

/-- Structural natural power on `ℚ` (kernel-reducible, unlike the
instance-based `Monoid.npow`). -/
def qpowNat (q : ℚ) : Nat → ℚ
  | 0 => 1
  | n + 1 => q * qpowNat q n

/-- Structural integer power on `ℚ`. -/
def qpowInt (q : ℚ) (e : Int) : ℚ :=
  if 0 ≤ e then qpowNat q e.toNat else (qpowNat q (-e).toNat)⁻¹

/-- Digit or underscore, the characters a digit run may contain. -/
def isDigitU (c : Char) : Bool := c.isDigit || c = '_'

/-- Optional exponent part of a float literal: empty, or `e`/`E`, an
optional sign and a digit run. -/
def parseExpPart : List Char → Option Int
  | [] => some 0
  | c :: rest =>
    if c = 'e' ∨ c = 'E' then
      let sg := signSplit rest
      if digitsOk sg.2 then some (sg.1 * digitsVal sg.2) else none
    else none

/-- Python `float(s)` on finite decimal literals: strip, optional
sign, integer and/or fractional digit run, optional exponent.  The
value is exact in `ℚ`; `none` models a raised `ValueError`. -/
def pyFloat? (s : String) : Option ℚ :=
  let sg := signSplit (pyStrip s).data
  let ip := sg.2.takeWhile isDigitU
  let r1 := sg.2.dropWhile isDigitU
  match r1 with
  | '.' :: r2 =>
    let fp := r2.takeWhile isDigitU
    let r3 := r2.dropWhile isDigitU
    if (ip ≠ [] ∨ fp ≠ []) ∧ (ip = [] ∨ digitsOk ip) ∧ (fp = [] ∨ digitsOk fp) then
      match parseExpPart r3 with
      | some e =>
        some ((sg.1 : ℚ) * ((digitsVal ip : ℚ) + (digitsVal fp : ℚ) / qpowNat 10 (digitsLen fp))
          * qpowInt 10 e)
      | none => none
    else none
  | _ =>
    if digitsOk ip then
      match parseExpPart r1 with
      | some e => some ((sg.1 : ℚ) * (digitsVal ip : ℚ) * qpowInt 10 e)
      | none => none
    else none

/-- A value as produced by `get_val` in `describe_process`: a Python
int, a Python float (exact in the rational model), or the raw string
fallback. -/
inductive PyVal where
  | intv (n : Int)
  | floatv (q : ℚ)
  | strv (s : String)
deriving DecidableEq, Repr

/-- `get_val` of `describe_process` (src/main_Back.py lines 446-458):
look the symbol up among the input widgets; when absent fall back to
the symbol name itself; otherwise parse the entry text as a float when
it contains a dot and as an int otherwise, falling back to the raw
text when parsing fails. -/
def get_val (bindings : String → Option String) (var : String) : PyVal :=
  match bindings var with
  | none => PyVal.strv var
  | some val =>
    if val.data.contains '.' then
      match pyFloat? val with
      | some q => PyVal.floatv q
      | none => PyVal.strv val
    else
      match pyInt? val with
      | some n => PyVal.intv n
      | none => PyVal.strv val

/-- Run-time parameter bindings: the `self.input_widgets` dict, with
`.get(var)` returning the entry text when the symbol has a widget. -/
abbrev Bindings := String → Option String

/-- Display rendering of a `get_val` result.  (For floats Python
renders the IEEE value; the decimal rendering of the exact rational
stands in for it — no claim depends on the rendered digits.) -/
def renderPyVal : PyVal → String
  | PyVal.intv n => toString n
  | PyVal.floatv q => toString q
  | PyVal.strv s => s

/-- Newline, used to join description lines. -/
def nlStr : String := "\n"

/-- The `"-"*40` rule of `describe_process`. -/
def dashLine : String := String.mk (List.replicate 40 '-')

/-- First description line (src/main_Back.py line 461). -/
def headerLine : String := "🧩 Process Description:" ++ nlStr ++ dashLine

/-- Literal fragments of the description lines
(src/main_Back.py lines 463-488). -/
def meanPre : String := "      • MEAN("

def meanMid : String := ") → Average for "

def meanPost : String := " repetitions"

def delayPre : String := "      • DELAY("

def delayMid : String := ") → Wait "

def delayPost : String := " seconds"

def outPre : String := "      • OUTPUT("

def closeParen : String := ")"

def sepCS : String := ", "

def sepEq : String := " = "

def eqChar : String := "="

def repeatPre : String := "🔁 REPEAT ("

def repeatMid : String := ") → "

def repeatPost : String := " times"

def forPre : String := "  ➤ FOR_RANGEV "

def openBraceLine : String := "    \x7b"

def closeBraceLine : String := "    \x7d"

def emptyLine : String := ""

/-- One command description line (src/main_Back.py lines 476-486). -/
def describeCommand (B : Bindings) : Command → String
  | Command.mean p => meanPre ++ p ++ meanMid ++ renderPyVal (get_val B p) ++ meanPost
  | Command.delay p => delayPre ++ p ++ delayMid ++ renderPyVal (get_val B p) ++ delayPost
  | Command.outputs o =>
    outPre ++ String.intercalate sepCS (o.map (fun kv => kv.1 ++ sepEq ++ kv.2)) ++ closeParen

/-- Description lines of one for-loop (src/main_Back.py lines 468-488). -/
def describeForLoop (B : Bindings) (fl : ForLoop) : List String :=
  (forPre ++ fl.start ++ eqChar ++ renderPyVal (get_val B fl.start) ++ sepCS
      ++ fl.end_ ++ eqChar ++ renderPyVal (get_val B fl.end_) ++ sepCS
      ++ fl.step ++ eqChar ++ renderPyVal (get_val B fl.step))
    :: openBraceLine
    :: (fl.commands.map (describeCommand B) ++ [closeBraceLine, emptyLine])

/-- Description lines of one repeat block (src/main_Back.py lines 463-488). -/
def describeBlock (B : Bindings) (b : RepeatBlock) : List String :=
  (repeatPre ++ b.repeats ++ repeatMid ++ renderPyVal (get_val B b.repeats) ++ repeatPost)
    :: (b.for_loops.map (describeForLoop B)).flatten

/-- `describe_process` (src/main_Back.py lines 441-502): render the
parsed program with the current bindings into the confirmation text.
It is a total function of the program and the bindings — the
messagebox answer it collects is modelled as the separate `confirmed`
input of `task`. -/
def describe_process (P : Program) (B : Bindings) : String :=
  String.intercalate nlStr
    (headerLine :: ((P.map (describeBlock B)).flatten ++ [dashLine]))

/-! The execution engine.  Python exceptions become `Except` errors;
because samples already written to the CSV sink survive an abort, run
results carry the state reached at the failure point. -/

/-- Python exceptions that the modelled code can raise. -/
inductive PyErr where
  | ioError (msg : String)
  | valueError (arg : String)
  | nameError (missing : String)
  | unboundLocalError (missing : String)
  | zeroDivisionError
deriving DecidableEq, Repr

/-- Python `float(...)` as used by the engine on bound entry text;
failure is a `ValueError`. -/
def pyFloatE (s : String) : Except PyErr ℚ :=
  match pyFloat? s with
  | some q => Except.ok q
  | none => Except.error (PyErr.valueError s)

/-- Python `int(...)` as used by the engine on bound entry text;
failure is a `ValueError`. -/
def pyIntE (s : String) : Except PyErr Int :=
  match pyInt? s with
  | some n => Except.ok n
  | none => Except.error (PyErr.valueError s)

/-- `int(widget.get()) if widget else dflt`: resolve a symbol to an
int through the bindings, with the loop-control default when the
symbol has no widget (src/main_Back.py lines 590-591, 611-612, 634-635). -/
def resolveInt (B : Bindings) (v : String) (dflt : Int) : Except PyErr Int :=
  match B v with
  | some s => pyIntE s
  | none => Except.ok dflt

/-- `float(widget.get()) if widget else dflt`: resolve a symbol to a
float through the bindings, with the loop-control default when the
symbol has no widget (src/main_Back.py lines 594-600, 620-622, 638-640). -/
def resolveFloat (B : Bindings) (v : String) (dflt : ℚ) : Except PyErr ℚ :=
  match B v with
  | some s => pyFloatE s
  | none => Except.ok dflt

/-- `steps_in_loop` of the pre-run pass (src/main_Back.py line 602):
`int(abs(end_val - start_val) / abs(step_val)) + 1`, with defaults
start 0.0, end 1.0, step 0.1 for unbound symbols; a bound step of 0
raises `ZeroDivisionError`. -/
def loopSteps (B : Bindings) (fl : ForLoop) : Except PyErr Int := do
  let startVal ← resolveFloat B fl.start 0
  let endVal ← resolveFloat B fl.end_ 1
  let stepVal ← resolveFloat B fl.step (1 / 10)
  if stepVal = 0 then Except.error PyErr.zeroDivisionError
  else Except.ok (⌊|endVal - startVal| / |stepVal|⌋ + 1)

/-- Contribution of one repeat block to `total_steps`
(src/main_Back.py lines 588-603): the block's cycle count — resolved
from the parsed `repeats` symbol, default 1 — times the steps of each
of its loops. -/
def blockSteps (B : Bindings) (b : RepeatBlock) : Except PyErr Int := do
  let cycles ← resolveInt B b.repeats 1
  b.for_loops.foldlM (fun acc fl => do
    let st ← loopSteps B fl
    pure (acc + cycles * st)) 0

/-- `total_steps`, computed once before execution by resolving every
symbol through the bindings (src/main_Back.py lines 583-605). -/
def totalSteps (B : Bindings) (P : Program) : Except PyErr Int :=
  P.foldlM (fun acc b => do
    let bs ← blockSteps B b
    pure (acc + bs)) 0

/-- Ascending branch of `frange` (src/main_Back.py lines 685-688):
`while x <= stop: append x; x += step`.  The fuel argument makes the
loop structurally recursive; the wrapper `frange` passes enough fuel
for every terminating run of the Python loop. -/
def frangeUpGo : Nat → ℚ → ℚ → ℚ → List ℚ
  | 0, _, _, _ => []
  | n + 1, x, stop, step => if x ≤ stop then x :: frangeUpGo n (x + step) stop step else []

/-- Descending branch of `frange` (src/main_Back.py lines 689-692):
`while x >= stop: append x; x += step`. -/
def frangeDownGo : Nat → ℚ → ℚ → ℚ → List ℚ
  | 0, _, _, _ => []
  | n + 1, x, stop, step => if stop ≤ x then x :: frangeDownGo n (x + step) stop step else []

/-- Fuel bound for `frange`: one more than the number of steps the
loop makes when `step` moves from `start` toward `stop`. -/
def frangeFuel (start stop step : ℚ) : Nat := (⌊(stop - start) / step⌋).toNat + 1

/-- `frange` (src/main_Back.py lines 682-693).  For `step ≠ 0` this is
exactly the Python loop (the fuel is shown sufficient in the theorems
below).  Python's `frange` with `step = 0` either returns `[]`
(when `start < stop`) or never terminates (when `start ≥ stop`); the
model returns a truncated list in the latter case, and every theorem
about sweeps assumes a non-zero step. -/
def frange (start stop step : ℚ) : List ℚ :=
  if 0 < step then frangeUpGo (frangeFuel start stop step) start stop step
  else frangeDownGo (frangeFuel start stop step) start stop step

/-- Sweep-direction choice (src/main_Back.py lines 644-648): the
ascending branch passes the *raw* bound step through to `frange`,
the descending branch passes `-abs(step_val)`. -/
def sweepValues (startVal endVal stepVal : ℚ) : List ℚ :=
  if startVal < endVal then frange startVal endVal stepVal
  else frange startVal endVal (-|stepVal|)

/-- Python `str.split(sep)` (every occurrence splits; an empty string
yields one empty field). -/
def pySplitGo : Char → List Char → List Char → List String
  | _, cur, [] => [String.mk cur.reverse]
  | sep, cur, c :: rest =>
    if c = sep then String.mk cur.reverse :: pySplitGo sep [] rest
    else pySplitGo sep (c :: cur) rest

/-- Python `s.split(sep)` for a one-character separator. -/
def pySplit (s : String) (sep : Char) : List String := pySplitGo sep [] s.data

/-- `10 ** exp` for the exponent field of an instrument response.  The
response exponent is an integral float; for a non-integral exponent
the real power is irrational and outside the rational model (that
branch is never evaluated by any claim). -/
def powTen (e : ℚ) : ℚ := if e.den = 1 then qpowInt 10 e.num else 0

/-- The local variable name whose read raises in `readCurrent`. -/
def currentVar : String := "current"

/-- The name read by `run_method` before it is ever assigned. -/
def continueMethodVar : String := "continue_method"

/-- `readCurrent` (src/main_Back.py lines 512-525), on the
`DEBUGGING = False` path where the instrument is actually consulted:
the raw transport read (which may itself fail) is stripped and split
on commas; exactly two fields are converted with `float` and combined
as `value * 10 ** exp`; any other field count prints `No Current` and
then evaluates `return current` with `current` never assigned, raising
`UnboundLocalError`. -/
def readCurrent (raw : Except PyErr String) : Except PyErr ℚ := do
  let resp ← raw
  match pySplit (pyStrip resp) ',' with
  | [a, b] =>
    match pyFloat? a, pyFloat? b with
    | some v, some e => Except.ok (v * powTen e)
    | _, _ => Except.error (PyErr.valueError resp)
  | _ => Except.error (PyErr.unboundLocalError currentVar)

/-- Observable state of one run: counters of instrument calls, the
`step_counter`, the CSV sink rows (each row is flushed as written, so
rows survive a later abort), and every progress fraction passed to
`progress_bar.set` during the run. -/
structure RunState where
  setCalls : Nat
  readCalls : Nat
  stepCounter : Nat
  sink : List (ℚ × ℚ)
  progress : List ℚ
deriving DecidableEq, Repr

/-- The state at the start of a run. -/
def initState : RunState :=
  { setCalls := 0, readCalls := 0, stepCounter := 0, sink := [], progress := [] }

/-- The instrument collaborator: outcome of the n-th setpoint command
and raw text of the n-th transport read (each may fail with an I/O
error). -/
structure Inst where
  set : Nat → Except PyErr Unit
  readRaw : Nat → Except PyErr String

/-- Run outcomes: on failure the state reached so far is kept — the
rows already flushed to the CSV are not rolled back. -/
abbrev RunRes := Except (PyErr × RunState) RunState

/-- Attach the current state to a stateless failure. -/
def liftE (st : RunState) : Except PyErr α → Except (PyErr × RunState) α
  | Except.ok a => Except.ok a
  | Except.error e => Except.error (e, st)

/-- The averaging reads of one sweep value (src/main_Back.py lines
656-659): `r_val` consecutive `readCurrent()` calls; a failing read
aborts immediately, so no partial average survives. -/
def takeReadings (inst : Inst) : Nat → RunState → Except (PyErr × RunState) (List ℚ × RunState)
  | 0, st => Except.ok ([], st)
  | n + 1, st =>
    match readCurrent (inst.readRaw st.readCalls) with
    | Except.error e => Except.error (e, { st with readCalls := st.readCalls + 1 })
    | Except.ok q =>
      match takeReadings inst n { st with readCalls := st.readCalls + 1 } with
      | Except.ok (qs, st2) => Except.ok (q :: qs, st2)
      | Except.error es => Except.error es

/-- Execution of one sweep value (src/main_Back.py lines 651-675):
setpoint, settle, `r_val` readings, arithmetic mean, CSV append (with
flush), `step_counter` increment and progress report
`step_counter / total_steps`.  A mean over zero readings and a zero
`total_steps` reproduce Python's `ZeroDivisionError`. -/
def execSweepValue (inst : Inst) (rVal : Int) (total : Int) (V : ℚ) (st : RunState) : RunRes :=
  match inst.set st.setCalls with
  | Except.error e => Except.error (e, st)
  | Except.ok _ =>
    let st1 := { st with setCalls := st.setCalls + 1 }
    match takeReadings inst rVal.toNat st1 with
    | Except.error es => Except.error es
    | Except.ok (currents, st2) =>
      if currents.length = 0 then Except.error (PyErr.zeroDivisionError, st2)
      else
        let iMean := currents.sum / (currents.length : ℚ)
        let st3 := { st2 with
          sink := st2.sink ++ [(V, iMean)], stepCounter := st2.stepCounter + 1 }
        if total = 0 then Except.error (PyErr.zeroDivisionError, st3)
        else Except.ok { st3 with
          progress := st3.progress ++ [(st3.stepCounter : ℚ) / (total : ℚ)] }

/-- The `for V in V_values` loop (src/main_Back.py line 651). -/
def execSweeps (inst : Inst) (rVal : Int) (total : Int) : List ℚ → RunState → RunRes
  | [], st => Except.ok st
  | v :: rest, st =>
    match execSweepValue inst rVal total v st with
    | Except.ok st2 => execSweeps inst rVal total rest st2
    | Except.error es => Except.error es

/-- The command scan of one loop pass (src/main_Back.py lines
627-642): starting from defaults `r_val = 1`, `delay_val = 0`, a MEAN
command rebinds `r_val` (default 1 when its symbol is unbound) and a
DELAY command rebinds `delay_val` (default 1.0 when unbound); a later
command overrides an earlier one; OUTPUT commands are ignored here. -/
def scanCommands (B : Bindings) : List Command → Int × ℚ → Except PyErr (Int × ℚ)
  | [], acc => Except.ok acc
  | Command.mean p :: rest, acc => do
    let r ← resolveInt B p 1
    scanCommands B rest (r, acc.2)
  | Command.delay p :: rest, acc => do
    let d ← resolveFloat B p 1
    scanCommands B rest (acc.1, d)
  | Command.outputs _ :: rest, acc => scanCommands B rest acc

/-- One pass over one for-loop (src/main_Back.py lines 618-675):
resolve the range symbols (defaults 0, 1, 0.1), scan the commands,
build the sweep values and execute them. -/
def execForLoop (B : Bindings) (inst : Inst) (total : Int) (fl : ForLoop) (st : RunState) :
    RunRes := do
  let startVal ← liftE st (resolveFloat B fl.start 0)
  let endVal ← liftE st (resolveFloat B fl.end_ 1)
  let stepVal ← liftE st (resolveFloat B fl.step (1 / 10))
  let rd ← liftE st (scanCommands B fl.commands (1, 0))
  execSweeps inst rd.1 total (sweepValues startVal endVal stepVal) st

/-- One pass over a block's for-loops, in program order
(src/main_Back.py line 618). -/
def execLoops (B : Bindings) (inst : Inst) (total : Int) : List ForLoop → RunState → RunRes
  | [], st => Except.ok st
  | fl :: rest, st =>
    match execForLoop B inst total fl st with
    | Except.ok st2 => execLoops B inst total rest st2
    | Except.error es => Except.error es

/-- The `for c in range(cycles_val)` loop (src/main_Back.py line 615):
each full pass re-executes all of the block's for-loops in order. -/
def execCycles (B : Bindings) (inst : Inst) (total : Int) (loops : List ForLoop) :
    Nat → RunState → RunRes
  | 0, st => Except.ok st
  | n + 1, st =>
    match execLoops B inst total loops st with
    | Except.ok st2 => execCycles B inst total loops n st2
    | Except.error es => Except.error es

/-- The symbol whose binding supplies a block's cycle count during
execution (src/main_Back.py line 610):
`repeat_block.get("repeat_var", "C")`.  The dicts built by
`parse_process` only ever have the keys `"repeats"` and `"for_loops"`,
so this lookup misses for every block and always yields the default
string `"C"` — it does not read the block's parsed repeat symbol. -/
def execRepeatVar (_rb : RepeatBlock) : String := "C"

/-- Execution of one repeat block (src/main_Back.py lines 609-616):
the cycle count is resolved from `execRepeatVar` (default 1 when
unbound); `range` of a negative count makes zero passes. -/
def execBlock (B : Bindings) (inst : Inst) (total : Int) (b : RepeatBlock) (st : RunState) :
    RunRes := do
  let cycles ← liftE st (resolveInt B (execRepeatVar b) 1)
  execCycles B inst total b.for_loops cycles.toNat st

/-- Blocks execute strictly in program order (src/main_Back.py line 609). -/
def execBlocks (B : Bindings) (inst : Inst) (total : Int) : Program → RunState → RunRes
  | [], st => Except.ok st
  | b :: rest, st =>
    match execBlock B inst total b st with
    | Except.ok st2 => execBlocks B inst total rest st2
    | Except.error es => Except.error es

/-- The body of `task` (src/main_Back.py lines 543-679) from the point
the run is set up: `total_steps` is computed up front, the blocks are
executed, and on completion `progress_bar.set(1.0)` (line 678) emits a
final fraction 1.  The `confirmed` argument is the operator's answer
collected through `describe_process` at line 554; the code stores that
answer and never branches on it, which is why the body below does not
mention `confirmed`. -/
def task (B : Bindings) (inst : Inst) (P : Program) (_confirmed : Bool) : RunRes := do
  let total ← liftE initState (totalSteps B P)
  let st ← execBlocks B inst total P initState
  Except.ok { st with progress := st.progress ++ [1] }

/-- The enclosing-scope names visible to `run_method` at line 540 that
could supply `continue_method`: the assignment at line 554 is local to
the nested `task`, the one at line 496 is local to
`describe_process`, and no enclosing scope assigns it — the scope is
empty. -/
def runMethodScope : List (String × Bool) := []

/-- `run_method` (src/main_Back.py lines 528-541) up to the launch of
the task thread: the method body is parsed, then
`if not continue_method:` is evaluated.  Because `continue_method` is
bound in no enclosing scope, Python raises `NameError` here — before
any confirmation is shown and before the task starts. -/
def run_method (processText : String) : Except PyErr Program :=
  let process_parsed := parse_process processText
  match runMethodScope.lookup continueMethodVar with
  | none => Except.error (PyErr.nameError continueMethodVar)
  | some cm => if cm then Except.ok process_parsed else Except.ok []

/-- An instrument whose setpoints always succeed and whose reads
always return the fixed response `resp`. -/
def instOk (resp : String) : Inst :=
  { set := fun _ => Except.ok (), readRaw := fun _ => Except.ok resp }

/-- An instrument whose k-th transport read (1-indexed) fails with `e`
while every other call succeeds. -/
def instReadFailAt (k : Nat) (e : PyErr) (resp : String) : Inst :=
  { set := fun _ => Except.ok ()
    readRaw := fun n => if n + 1 = k then Except.error e else Except.ok resp }

/-- An instrument whose k-th setpoint command (1-indexed) fails with
`e` while every other call succeeds. -/
def instSetFailAt (k : Nat) (e : PyErr) (resp : String) : Inst :=
  { set := fun n => if n + 1 = k then Except.error e else Except.ok ()
    readRaw := fun _ => Except.ok resp }

/-- Bindings given by an association list. -/
def bindingsOf (l : List (String × String)) : Bindings := fun v => l.lookup v

/-- A single comma, the separator of command lists. -/
def commaStr : String := ","

/-- The spec's example input for the splitter. -/
def exSplitIn : String := "MEAN(R),DELAY(D),OUTPUT(Vout=V,Iout=I)"

/-- First expected segment of the splitter example. -/
def exSplitA : String := "MEAN(R)"

/-- Second expected segment of the splitter example. -/
def exSplitB : String := "DELAY(D)"

/-- Third expected segment of the splitter example: the nested commas
of the OUTPUT argument are preserved. -/
def exSplitC : String := "OUTPUT(Vout=V,Iout=I)"

/-- A source text containing a tab: the preprocessing of
`parse_process` removes only spaces and newlines, so the tab stays and
breaks the `REPEAT(` literal. -/
def tabSrc : String := "REPEAT\t(C)\x7b\x7d"

/-- A truncated REPEAT clause: no block pattern matches. -/
def junkRepeat : String := "REPEAT(X"

/-- A REPEAT block whose FOR_RANGEV clause has only two range symbols:
the for-block pattern does not match, leaving a block with no loops. -/
def junkFor : String := "REPEAT(X)\x7bFOR_RANGEV(a,b)\x7bMEAN(r)\x7d\x7d"

/-- A command list with an unknown command name (FOO) and a substring
not of the `NAME(args)` form (BAR): both are silently dropped. -/
def dropCmdSrc : String := "REPEAT(X)\x7bFOR_RANGEV(a,b,c)\x7bFOO(1),BAR,MEAN(r)\x7d\x7d"

/-- An OUTPUT argument with one piece lacking `=`: that piece is
silently dropped. -/
def dropEqSrc : String := "REPEAT(X)\x7bFOR_RANGEV(a,b,c)\x7bOUTPUT(u=1,v)\x7d\x7d"

/-- The block parsed from `junkFor`. -/
def blockX : RepeatBlock := { repeats := "X", for_loops := [] }

/-- The program parsed from `dropCmdSrc`: only the MEAN command
survives. -/
def progDropCmd : Program :=
  [{ repeats := "X",
     for_loops := [{ start := "a", end_ := "b", step := "c",
                     commands := [Command.mean (r"r")] }] }]

/-- The program parsed from `dropEqSrc`: only the `u=1` output pair
survives. -/
def progDropEq : Program :=
  [{ repeats := "X",
     for_loops := [{ start := "a", end_ := "b", step := "c",
                     commands := [Command.outputs [(r"u", r"1")]] }] }]

/-- A binding table holding one entry whose text parses neither as an
int nor as a float. -/
def bindUnparse : Bindings := bindingsOf [(r"x", r"12a.")]

/-- The bound symbol of `bindUnparse`. -/
def xName : String := "x"

/-- A symbol with no binding. -/
def yName : String := "y"

/-- The unparsable entry text of `bindUnparse`. -/
def val12 : String := "12a."

/-- A well-formed instrument response: two comma-separated fields. -/
def goodResp : String := "10,-2"

/-- A malformed instrument response: a single field. -/
def respBad : String := "10"

/-- The single command-less loop over symbols `a`, `b`, `s`. -/
def loopABS : ForLoop := { start := "a", end_ := "b", step := "s", commands := [] }

/-- A repeat block with symbol `X` holding the one loop `loopABS`. -/
def blockXloop : RepeatBlock := { repeats := "X", for_loops := [loopABS] }

/-- A single-block, single-loop program whose repeat symbol is `X`
(not the hard-wired `C` of the execution pass). -/
def progX : Program := [blockXloop]

/-- Bindings exhibiting the repeat-symbol bug: `X` (the parsed repeat
symbol) is bound to 3 while `C` (the symbol the execution pass
actually reads) is unbound; the loop runs over the single point 0. -/
def bindC1 : Bindings := bindingsOf [(r"X", r"3"), (r"a", r"0"), (r"b", r"0"), (r"s", r"1")]

/-- Bindings exhibiting the progress-fraction consequence of the
repeat-symbol bug: `X` is bound to 1 (so `total_steps` is 2) while `C`
is bound to 2 (so the engine makes two passes, 4 sweep steps). -/
def bindC2 : Bindings :=
  bindingsOf [(r"X", r"1"), (r"C", r"2"), (r"a", r"0"), (r"b", r"1"), (r"s", r"1")]

/-- Bindings for a three-point sweep 0, 1, 2 (used by the
instrument-failure run). -/
def bindC5 : Bindings := bindingsOf [(r"a", r"0"), (r"b", r"2"), (r"s", r"1")]

/-- The three-point sweep driven by `bindC5`. -/
def sweepC5 : List ℚ := [0, 1, 2]

/-- The message of the injected instrument fault. -/
def blipMsg : String := "read failed"

/-- The injected instrument fault. -/
def ioBlip : PyErr := PyErr.ioError blipMsg

/-!
Canonical rendering of a Program back to method-source text.  This is
the spec side of C7 ("for all source texts with N top-level REPEAT
blocks separated by `:` ..."): the class of such texts is formalised
as the canonical renderings of well-formed Programs, and `parse` is
shown to recover the Program exactly (blocks in source order).
-/

/-- Join character lists with a single-character separator. -/
def joinSep (sep : Char) : List (List Char) → List Char
  | [] => []
  | [x] => x
  | x :: y :: rest => x ++ sep :: joinSep sep (y :: rest)

/-- The word `MEAN`. -/
def meanWord : List Char := ['M', 'E', 'A', 'N']

/-- The word `DELAY`. -/
def delayWord : List Char := ['D', 'E', 'L', 'A', 'Y']

/-- The word `OUTPUT`. -/
def outputWord : List Char := ['O', 'U', 'T', 'P', 'U', 'T']

/-- Canonical rendering of one command, e.g. `MEAN(R)` or
`OUTPUT(Vout=V,Iout=I)`. -/
def renderCommandL : Command → List Char
  | Command.mean p => meanWord ++ '(' :: p.data ++ [')']
  | Command.delay p => delayWord ++ '(' :: p.data ++ [')']
  | Command.outputs o =>
    outputWord ++ '(' :: joinSep ',' (o.map (fun kv => kv.1.data ++ '=' :: kv.2.data)) ++ [')']

/-- Canonical rendering of one for-loop:
`FOR_RANGEV(a,b,c){cmd,...,cmd}`. -/
def renderForLoopL (fl : ForLoop) : List Char :=
  forLit ++ fl.start.data ++ ',' :: fl.end_.data ++ ',' :: fl.step.data
    ++ ')' :: '\x7b' :: joinSep ',' (fl.commands.map renderCommandL) ++ ['\x7d']

/-- Canonical rendering of one repeat block:
`REPEAT(v){forloop...forloop}`. -/
def renderBlockL (b : RepeatBlock) : List Char :=
  repeatLit ++ b.repeats.data ++ ')' :: '\x7b'
    :: (b.for_loops.map renderForLoopL).flatten ++ ['\x7d']

/-- Canonical rendering of a whole program, blocks separated by `:`. -/
def renderProgramL (P : Program) : List Char := joinSep ':' (P.map renderBlockL)

/-- Canonical rendering as a string. -/
def renderProgram (P : Program) : String := String.mk (renderProgramL P)

/-- A well-formed symbol name: non-empty and made of word characters
only (so the `\w+`, `[^,]+` and `[^)]+` groups match it exactly). -/
def wfName (s : String) : Bool := !s.data.isEmpty && s.data.all isWordChar

/-- Distinctness of the output keys (a Python dict cannot hold two
entries with the same key, so only such command values round-trip). -/
def distinctKeys : List (String × String) → Bool
  | [] => true
  | kv :: rest => rest.all (fun kv2 => !(kv2.1 == kv.1)) && distinctKeys rest

/-- Well-formedness of a command: word-character names throughout and
distinct output keys. -/
def wfCommandB : Command → Bool
  | Command.mean p => wfName p
  | Command.delay p => wfName p
  | Command.outputs o =>
    o.all (fun kv => wfName kv.1 && wfName kv.2) && distinctKeys o

/-- Well-formedness of a for-loop. -/
def wfForLoopB (fl : ForLoop) : Bool :=
  wfName fl.start && wfName fl.end_ && wfName fl.step && fl.commands.all wfCommandB

/-- Well-formedness of a repeat block. -/
def wfBlockB (b : RepeatBlock) : Bool :=
  wfName b.repeats && b.for_loops.all wfForLoopB

/-- Well-formedness of a program. -/
def wfProgramB (P : Program) : Bool := P.all wfBlockB

/-- Characters that can occur in a rendered command: word characters,
parentheses, comma and equals — in particular no braces, no colon and
no whitespace. -/
def cmdOkChar (c : Char) : Bool :=
  isWordChar c || c = '(' || c = ')' || c = ',' || c = '='

/-- Characters that can occur in a rendered repeat-block body: command
characters and braces — still no colon and no whitespace. -/
def bodyOkChar (c : Char) : Bool := cmdOkChar c || c = '\x7b' || c = '\x7d'

/-- The spec's example source for C7. -/
def srcExample : String :=
  "REPEAT(C)\x7bFOR_RANGEV(Vi,Vf,Vr)\x7bMEAN(R),DELAY(D),OUTPUT(Vout=V,Iout=I)\x7d\x7d"

/-- The program the spec expects from `srcExample`. -/
def progExample : Program :=
  [{ repeats := "C",
     for_loops := [{ start := "Vi", end_ := "Vf", step := "Vr",
                     commands := [Command.mean (r"R"), Command.delay (r"D"),
                       Command.outputs [(r"Vout", r"V"), (r"Iout", r"I")]] }] }]

/-!
Theorems.  Helper lemmas come first, then one theorem per claim (with
its witness or counterexample where required).
-/

/-- A `String` is its character list. -/
theorem stringMk_data (s : String) : String.mk s.data = s := by
  cases s
  rfl

/-- Character list of an appended string. -/
theorem data_append (a b : String) : (a ++ b).data = a.data ++ b.data := by
  cases a
  cases b
  rfl

/-- A predicate holding on every element leaves `takeWhile` with the
whole list. -/
theorem takeWhile_eq_self_of (p : Char → Bool) (l : List Char) (h : ∀ c ∈ l, p c = true) :
    l.takeWhile p = l :=
  List.takeWhile_eq_self_iff.mpr h

/-- A predicate holding on every element leaves `dropWhile` empty. -/
theorem dropWhile_eq_nil_of (p : Char → Bool) (l : List Char) (h : ∀ c ∈ l, p c = true) :
    l.dropWhile p = [] :=
  List.dropWhile_eq_nil_iff.mpr h

/-- An underscore-free digit run has a valid tail. -/
theorem digitsRest_of (l : List Char) (h : ∀ c ∈ l, c.isDigit = true) :
    digitsRest false l = true := by
  induction l with
  | nil => rfl
  | cons c rest ih =>
    have hc : ¬c = '_' := by
      intro e
      have := h c (by simp)
      rw [e] at this
      simp at this
    simp only [digitsRest, if_neg hc, Bool.and_eq_true]
    exact ⟨h c (by simp), ih (fun d hd => h d (by simp [hd]))⟩

/-- A non-empty underscore-free digit run is a valid digit run. -/
theorem digitsOk_of (l : List Char) (hne : l ≠ []) (h : ∀ c ∈ l, c.isDigit = true) :
    digitsOk l = true := by
  cases l with
  | nil => exact absurd rfl hne
  | cons c rest =>
    simp only [digitsOk, Bool.and_eq_true]
    exact ⟨h c (by simp), digitsRest_of rest (fun d hd => h d (by simp [hd]))⟩

/-- `float` on a plain unsigned digit string yields its digit value. -/
theorem pyFloat?_pos_digits (s : String) (ds : List Char)
    (hsign : signSplit (pyStrip s).data = (1, ds))
    (hne : ds ≠ []) (hd : ∀ c ∈ ds, c.isDigit = true) :
    pyFloat? s = some ((digitsVal ds : ℚ)) := by
  have hdu : ∀ c ∈ ds, isDigitU c = true := by
    intro c hc
    simp [isDigitU, hd c hc]
  have htake : ds.takeWhile isDigitU = ds := takeWhile_eq_self_of _ _ hdu
  have hdrop : ds.dropWhile isDigitU = [] := dropWhile_eq_nil_of _ _ hdu
  simp only [pyFloat?, hsign, htake, hdrop]
  rw [digitsOk_of ds hne hd]
  simp [parseExpPart, qpowInt, qpowNat]

/-- `float` on a minus sign followed by digits yields the negated
digit value. -/
theorem pyFloat?_neg_digits (s : String) (ds : List Char)
    (hsign : signSplit (pyStrip s).data = (-1, ds))
    (hne : ds ≠ []) (hd : ∀ c ∈ ds, c.isDigit = true) :
    pyFloat? s = some (-(digitsVal ds : ℚ)) := by
  have hdu : ∀ c ∈ ds, isDigitU c = true := by
    intro c hc
    simp [isDigitU, hd c hc]
  have htake : ds.takeWhile isDigitU = ds := takeWhile_eq_self_of _ _ hdu
  have hdrop : ds.dropWhile isDigitU = [] := dropWhile_eq_nil_of _ _ hdu
  simp only [pyFloat?, hsign, htake, hdrop]
  rw [digitsOk_of ds hne hd]
  simp [parseExpPart, qpowInt, qpowNat]

/-- `int` on a plain unsigned digit string yields its digit value. -/
theorem pyInt?_pos_digits (s : String) (ds : List Char)
    (hsign : signSplit (pyStrip s).data = (1, ds))
    (hne : ds ≠ []) (hd : ∀ c ∈ ds, c.isDigit = true) :
    pyInt? s = some ((digitsVal ds : ℤ)) := by
  simp only [pyInt?, hsign]
  rw [digitsOk_of ds hne hd]
  simp

/-- When no comma of `l` sits at accumulated depth zero, the scanner
flushes everything into one final segment (or nothing when empty). -/
theorem splitGo_flush (l : List Char) : ∀ (d : Int) (cur : List Char),
    (∀ i, i < l.length → l.get? i = some ',' → d + netDepth (l.take i) ≠ 0) →
    splitGo d cur l =
      if (cur.reverse ++ l) = [] then [] else [String.mk (cur.reverse ++ l)] := by
  induction l with
  | nil =>
    intro d cur _
    simp [splitGo, List.reverse_eq_nil_iff]
  | cons c rest ih =>
    intro d cur h
    have h0 : c = ',' → d ≠ 0 := by
      intro hc
      have := h 0 (by simp) (by simp [hc])
      simpa [netDepth] using this
    have hcond : ¬(c = ',' ∧ (if c = '(' then d + 1 else if c = ')' then d - 1 else d) = 0) := by
      rintro ⟨hc, hp⟩
      subst hc
      simp at hp
      exact h0 rfl hp
    have hstep : splitGo d cur (c :: rest) =
        splitGo (if c = '(' then d + 1 else if c = ')' then d - 1 else d) (c :: cur) rest := by
      simp only [splitGo]
      rw [if_neg hcond]
    rw [hstep]
    have hshift : ∀ i, i < rest.length → rest.get? i = some ',' →
        (if c = '(' then d + 1 else if c = ')' then d - 1 else d) + netDepth (rest.take i) ≠ 0 := by
      intro i hi hcomma
      have := h (i + 1) (by simpa using hi) (by simpa using hcomma)
      rw [List.take_succ_cons] at this
      simp only [netDepth] at this
      intro hzero
      apply this
      by_cases h1 : c = '('
      · simp [h1] at hzero ⊢
        omega
      · by_cases h2 : c = ')'
        · simp [h1, h2] at hzero ⊢
          omega
        · simp [h1, h2] at hzero ⊢
          omega
    rw [ih _ _ hshift]
    have harr : (c :: cur).reverse ++ rest = cur.reverse ++ (c :: rest) := by
      simp
    rw [harr]

/-- When `a` carries no comma at accumulated depth zero and its net
depth returns the counter to zero, the scanner cuts exactly at the
comma that follows `a`. -/
theorem splitGo_cut (a : List Char) : ∀ (d : Int) (cur : List Char) (rest : List Char),
    (∀ i, i < a.length → a.get? i = some ',' → d + netDepth (a.take i) ≠ 0) →
    d + netDepth a = 0 →
    splitGo d cur (a ++ ',' :: rest) =
      String.mk (cur.reverse ++ a) :: splitGo 0 [] rest := by
  induction a with
  | nil =>
    intro d cur rest _ hd
    have hd0 : d = 0 := by simpa [netDepth] using hd
    subst hd0
    simp [splitGo]
  | cons c a2 ih =>
    intro d cur rest h hd
    have h0 : c = ',' → d ≠ 0 := by
      intro hc
      have := h 0 (by simp) (by simp [hc])
      simpa [netDepth] using this
    have hcond : ¬(c = ',' ∧ (if c = '(' then d + 1 else if c = ')' then d - 1 else d) = 0) := by
      rintro ⟨hc, hp⟩
      subst hc
      simp at hp
      exact h0 rfl hp
    have hstep : splitGo d cur ((c :: a2) ++ ',' :: rest) =
        splitGo (if c = '(' then d + 1 else if c = ')' then d - 1 else d) (c :: cur)
          (a2 ++ ',' :: rest) := by
      simp only [List.cons_append, splitGo, List.append_eq]
      rw [if_neg hcond]
    rw [hstep]
    have hshift : ∀ i, i < a2.length → a2.get? i = some ',' →
        (if c = '(' then d + 1 else if c = ')' then d - 1 else d) + netDepth (a2.take i) ≠ 0 := by
      intro i hi hcomma
      have := h (i + 1) (by simpa using hi) (by simpa using hcomma)
      rw [List.take_succ_cons] at this
      simp only [netDepth] at this
      intro hzero
      apply this
      by_cases h1 : c = '('
      · simp [h1] at hzero ⊢
        omega
      · by_cases h2 : c = ')'
        · simp [h1, h2] at hzero ⊢
          omega
        · simp [h1, h2] at hzero ⊢
          omega
    have hd2 : (if c = '(' then d + 1 else if c = ')' then d - 1 else d) + netDepth a2 = 0 := by
      simp only [netDepth] at hd
      by_cases h1 : c = '('
      · simp [h1] at hd ⊢
        omega
      · by_cases h2 : c = ')'
        · simp [h1, h2] at hd ⊢
          omega
        · simp [h1, h2] at hd ⊢
          omega
    rw [ih _ _ _ hshift hd2]
    have harr : (c :: cur).reverse ++ a2 = cur.reverse ++ (c :: a2) := by
      simp
    rw [harr]

/-- C6: `split_commands` splits its input only at commas occurring at
parenthesis depth 0, the depth being the signed count of `(` minus `)`
over the prefix before the comma: a depth-balanced segment with no
depth-0 comma is cut exactly at the following top-level comma, commas
inside nesting are kept in their segment, trailing content (even with
unmatched parentheses) is emitted as a final segment when non-empty,
and the spec's example splits into its three commands. -/
theorem c6_split_commands :
    (∀ a rest : String, netDepth a.data = 0 →
      (∀ i, i < a.data.length → a.data.get? i = some ',' → netDepth (a.data.take i) ≠ 0) →
      split_commands (a ++ commaStr ++ rest) = a :: split_commands rest)
  ∧ (∀ a : String, a.data ≠ [] →
      (∀ i, i < a.data.length → a.data.get? i = some ',' → netDepth (a.data.take i) ≠ 0) →
      split_commands a = [a])
  ∧ split_commands exSplitIn = [exSplitA, exSplitB, exSplitC] := by
  refine ⟨?_, ?_, by decide⟩
  · intro a rest hdep hcomma
    show splitGo 0 [] (a ++ commaStr ++ rest).data = _
    rw [data_append, data_append]
    have hc : commaStr.data = [','] := rfl
    rw [hc]
    have harr : a.data ++ [','] ++ rest.data = a.data ++ ',' :: rest.data := by
      simp
    rw [harr]
    rw [splitGo_cut a.data 0 [] rest.data
      (by intro i hi hcm; simpa using hcomma i hi hcm) (by simpa using hdep)]
    simp [split_commands, stringMk_data]
  · intro a hne hcomma
    show splitGo 0 [] a.data = _
    rw [splitGo_flush a.data 0 []
      (by intro i hi hcm; simpa using hcomma i hi hcm)]
    simp only [List.reverse_nil, List.nil_append]
    rw [if_neg hne, stringMk_data]

/-- Witness for C6, instantiating both quantified parts on concrete
segments. -/
theorem c6_split_commands_witness :
    netDepth exSplitA.data = 0 ∧
    split_commands (exSplitA ++ commaStr ++ exSplitB) = exSplitA :: split_commands exSplitB ∧
    split_commands exSplitC = [exSplitC] :=
  ⟨by decide, c6_split_commands.1 exSplitA exSplitB (by decide) (by decide),
    c6_split_commands.2.1 exSplitC (by decide) (by decide)⟩

/-- The preprocessing of `parse_process` is idempotent. -/
theorem stripSpaceNewline_idem (s : String) :
    stripSpaceNewline (stripSpaceNewline s) = stripSpaceNewline s := by
  simp [stripSpaceNewline, List.filter_filter]

/-- Parsing only sees the preprocessed text. -/
theorem parse_process_congr (s t : String)
    (h : stripSpaceNewline s = stripSpaceNewline t) :
    parse_process s = parse_process t := by
  simp only [parse_process]
  rw [h]

/-- C9 (amended): parsing is insensitive exactly to spaces and
newlines — a text parses the same as its space-and-newline-stripped
form, and any two texts agreeing after that stripping (in particular,
texts differing by inserted spaces or line breaks) parse to the same
Program.  Other whitespace, such as a tab, is significant (see the
counterexample). -/
theorem c9_space_newline_insensitive :
    (∀ s : String, parse_process (stripSpaceNewline s) = parse_process s)
  ∧ (∀ s t : String, stripSpaceNewline s = stripSpaceNewline t →
      parse_process s = parse_process t) := by
  constructor
  · intro s
    exact parse_process_congr _ _ (stripSpaceNewline_idem s)
  · exact parse_process_congr

/-- Witness for C9, instantiating both parts on the spec's example
source with inserted spaces. -/
theorem c9_space_newline_insensitive_witness :
    parse_process (stripSpaceNewline exSplitIn) = parse_process exSplitIn ∧
    stripSpaceNewline junkRepeat = stripSpaceNewline junkRepeat ∧
    parse_process junkRepeat = parse_process junkRepeat :=
  ⟨c9_space_newline_insensitive.1 exSplitIn, rfl,
    c9_space_newline_insensitive.2 junkRepeat junkRepeat rfl⟩

/-- C9 counterexample: the claim promises insensitivity to all
whitespace, but a tab survives the preprocessing (which removes only
`' '` and `'\n'`), so `tabSrc` parses to no block while its fully
whitespace-stripped form parses to one. -/
theorem c9_counterexample :
    parse_process tabSrc ≠
      parse_process (String.mk (tabSrc.data.filter (fun c => !c.isWhitespace))) := by
  decide

/-- C8: parsing degrades only by omission — a truncated REPEAT yields
no block, a malformed FOR_RANGEV yields a block with no loops, command
substrings that are not `NAME(args)` and unknown command names are
dropped, OUTPUT pieces without `=` are dropped — and the describer's
value resolution falls back to the raw symbol name when unbound and to
the raw entry text when it parses neither as float nor as int. -/
theorem c8_degrade :
    parse_process junkRepeat = []
  ∧ parse_process junkFor = [blockX]
  ∧ parse_process dropCmdSrc = progDropCmd
  ∧ parse_process dropEqSrc = progDropEq
  ∧ (∀ (B : Bindings) (v : String), B v = none → get_val B v = PyVal.strv v)
  ∧ (∀ (B : Bindings) (v s : String), B v = some s → pyFloat? s = none → pyInt? s = none →
      get_val B v = PyVal.strv s) := by
  refine ⟨by decide, by decide, by decide, by decide, ?_, ?_⟩
  · intro B v h
    simp [get_val, h]
  · intro B v s hB hF hI
    simp only [get_val, hB]
    cases hc : s.data.contains '.' with
    | true => simp [hc, hF]
    | false => simp [hc, hI]

/-- Witness for C8's quantified fallbacks, on a binding table with one
unparsable entry and one absent symbol. -/
theorem c8_degrade_witness :
    bindUnparse yName = none ∧
    get_val bindUnparse yName = PyVal.strv yName ∧
    bindUnparse xName = some val12 ∧
    get_val bindUnparse xName = PyVal.strv val12 :=
  ⟨by decide, c8_degrade.2.2.2.2.1 bindUnparse yName (by decide),
    by decide, c8_degrade.2.2.2.2.2 bindUnparse xName val12 (by decide) (by decide) (by decide)⟩

/-- Evaluation: `float("10")`. -/
theorem pyF10 : pyFloat? (r"10") = some 10 := by
  have hx := pyFloat?_pos_digits (r"10") ['1', '0'] (by decide) (by decide) (by decide)
  have hv : digitsVal ['1', '0'] = 10 := by decide
  rw [hx, hv]
  norm_num

/-- Evaluation: `float("-2")`. -/
theorem pyFm2 : pyFloat? (r"-2") = some (-2) := by
  have hx := pyFloat?_neg_digits (r"-2") ['2'] (by decide) (by decide) (by decide)
  have hv : digitsVal ['2'] = 2 := by decide
  rw [hx, hv]
  norm_num

/-- Evaluation: `float("0")`. -/
theorem pyF0 : pyFloat? (r"0") = some 0 := by
  have hx := pyFloat?_pos_digits (r"0") ['0'] (by decide) (by decide) (by decide)
  have hv : digitsVal ['0'] = 0 := by decide
  rw [hx, hv]
  norm_num

/-- Evaluation: `float("1")`. -/
theorem pyF1 : pyFloat? (r"1") = some 1 := by
  have hx := pyFloat?_pos_digits (r"1") ['1'] (by decide) (by decide) (by decide)
  have hv : digitsVal ['1'] = 1 := by decide
  rw [hx, hv]
  norm_num

/-- Evaluation: `float("2")`. -/
theorem pyF2 : pyFloat? (r"2") = some 2 := by
  have hx := pyFloat?_pos_digits (r"2") ['2'] (by decide) (by decide) (by decide)
  have hv : digitsVal ['2'] = 2 := by decide
  rw [hx, hv]
  norm_num

/-- Evaluation: `int("1")`. -/
theorem pyI1 : pyInt? (r"1") = some 1 := by
  have hx := pyInt?_pos_digits (r"1") ['1'] (by decide) (by decide) (by decide)
  have hv : digitsVal ['1'] = 1 := by decide
  rw [hx, hv]
  norm_num

/-- Evaluation: `int("2")`. -/
theorem pyI2 : pyInt? (r"2") = some 2 := by
  have hx := pyInt?_pos_digits (r"2") ['2'] (by decide) (by decide) (by decide)
  have hv : digitsVal ['2'] = 2 := by decide
  rw [hx, hv]
  norm_num

/-- Evaluation: `int("3")`. -/
theorem pyI3 : pyInt? (r"3") = some 3 := by
  have hx := pyInt?_pos_digits (r"3") ['3'] (by decide) (by decide) (by decide)
  have hv : digitsVal ['3'] = 3 := by decide
  rw [hx, hv]
  norm_num

/-- Evaluation: `10 ** -2` on the integral-exponent branch. -/
theorem powTen_m2 : powTen (-2) = 1 / 100 := by
  have hd : ((-2 : ℚ)).den = 1 := by decide
  have hn : ((-2 : ℚ)).num = -2 := by decide
  rw [powTen, if_pos hd, hn, qpowInt, if_neg (by norm_num)]
  norm_num [qpowNat]

/-- Evaluation: reading the response `10,-2` yields the current
`10 * 10 ** -2 = 1/10`. -/
theorem readCurrent_goodResp : readCurrent (Except.ok goodResp) = Except.ok (1 / 10) := by
  have hsplit : pySplit (pyStrip goodResp) ',' = [r"10", r"-2"] := by decide
  simp only [readCurrent, bind, Except.bind, hsplit, pyF10, pyFm2]
  rw [powTen_m2]
  norm_num

/-- C10: `readCurrent` (on a successful transport read) returns
`value * 10 ** exp` only when the response splits on `,` into exactly
two fields; any other field count takes the `No Current` branch, which
never assigns the variable returned, so the call raises
`UnboundLocalError` instead of falling back gracefully. -/
theorem c10_readCurrent :
    (∀ raw : String, (pySplit (pyStrip raw) ',').length ≠ 2 →
      readCurrent (Except.ok raw) = Except.error (PyErr.unboundLocalError currentVar))
  ∧ (∀ (raw a b : String) (v e : ℚ), pySplit (pyStrip raw) ',' = [a, b] →
      pyFloat? a = some v → pyFloat? b = some e →
      readCurrent (Except.ok raw) = Except.ok (v * powTen e)) := by
  constructor
  · intro raw hlen
    simp only [readCurrent, bind, Except.bind]
    rcases hsplit : pySplit (pyStrip raw) ',' with _ | ⟨a, _ | ⟨b, _ | ⟨c, t⟩⟩⟩
    · rfl
    · rfl
    · rw [hsplit] at hlen
      simp at hlen
    · rfl
  · intro raw a b v e hsplit hFa hFb
    simp only [readCurrent, bind, Except.bind, hsplit, hFa, hFb]

/-- Witness for C10: a one-field response raises, the two-field
response `10,-2` yields `10 * 10 ** (-2)`. -/
theorem c10_readCurrent_witness :
    (pySplit (pyStrip respBad) ',').length = 1 ∧
    readCurrent (Except.ok respBad) = Except.error (PyErr.unboundLocalError currentVar) ∧
    readCurrent (Except.ok goodResp) = Except.ok (10 * powTen (-2)) := by
  refine ⟨by decide, c10_readCurrent.1 respBad (by decide), ?_⟩
  exact c10_readCurrent.2 goodResp (r"10") (r"-2") 10 (-2) (by decide) pyF10 pyFm2

/-- With enough fuel, the ascending `frange` loop produces the
inclusive arithmetic sequence from `x` toward `stop`. -/
theorem frangeUpGo_eq (stop step : ℚ) (hstep : 0 < step) :
    ∀ (n : ℕ) (x : ℚ), (x ≤ stop → (⌊(stop - x) / step⌋).toNat + 1 ≤ n) →
      frangeUpGo n x stop step =
        (List.range (if x ≤ stop then (⌊(stop - x) / step⌋).toNat + 1 else 0)).map
          (fun i : ℕ => x + (i : ℚ) * step) := by
  intro n
  induction n with
  | zero =>
    intro x h
    have hx : ¬x ≤ stop := by
      intro hx
      have := h hx
      omega
    simp [frangeUpGo, hx]
  | succ n ih =>
    intro x h
    by_cases hx : x ≤ stop
    · have hk0 : 0 ≤ ⌊(stop - x) / step⌋ :=
        Int.floor_nonneg.mpr (div_nonneg (by linarith) hstep.le)
      have hfloor : ⌊(stop - (x + step)) / step⌋ = ⌊(stop - x) / step⌋ - 1 := by
        have hdiv : (stop - (x + step)) / step = (stop - x) / step - 1 := by
          field_simp
          ring
        rw [hdiv, show ((1 : ℚ)) = ((1 : ℤ) : ℚ) by norm_num, Int.floor_sub_int]
      have hlhs : frangeUpGo (n + 1) x stop step =
          x :: frangeUpGo n (x + step) stop step := by
        simp only [frangeUpGo]
        rw [if_pos hx]
      rw [hlhs, if_pos hx, List.range_succ_eq_map, List.map_cons, List.map_map]
      by_cases hx2 : x + step ≤ stop
      · have hk1 : 1 ≤ ⌊(stop - x) / step⌋ := by
          have h0 : 0 ≤ ⌊(stop - (x + step)) / step⌋ :=
            Int.floor_nonneg.mpr (div_nonneg (by linarith) hstep.le)
          omega
        have hfuel : x + step ≤ stop → (⌊(stop - (x + step)) / step⌋).toNat + 1 ≤ n := by
          intro _
          have := h hx
          rw [hfloor]
          omega
        rw [ih (x + step) hfuel, if_pos hx2, hfloor]
        have hnat : (⌊(stop - x) / step⌋ - 1).toNat + 1 = (⌊(stop - x) / step⌋).toNat := by
          omega
        rw [hnat]
        congr 1
        · norm_num
        · apply List.map_congr_left
          intro i _
          simp only [Function.comp]
          push_cast
          ring
      · have hk00 : ⌊(stop - x) / step⌋ = 0 := by
          have hlt : (stop - x) / step < 1 := by
            rw [div_lt_one hstep]
            linarith [not_le.mp hx2]
          have hfl : ⌊(stop - x) / step⌋ < 1 := Int.floor_lt.mpr (by exact_mod_cast hlt)
          omega
        rw [ih (x + step) (fun hcon => absurd hcon hx2), if_neg hx2, hk00]
        simp
    · have hlhs : frangeUpGo (n + 1) x stop step = [] := by
        simp only [frangeUpGo]
        rw [if_neg hx]
      rw [hlhs, if_neg hx]
      simp

/-- With enough fuel, the descending `frange` loop produces the
inclusive arithmetic sequence from `x` down toward `stop`. -/
theorem frangeDownGo_eq (stop step : ℚ) (hstep : step < 0) :
    ∀ (n : ℕ) (x : ℚ), (stop ≤ x → (⌊(x - stop) / (-step)⌋).toNat + 1 ≤ n) →
      frangeDownGo n x stop step =
        (List.range (if stop ≤ x then (⌊(x - stop) / (-step)⌋).toNat + 1 else 0)).map
          (fun i : ℕ => x + (i : ℚ) * step) := by
  have hpos : 0 < -step := by linarith
  intro n
  induction n with
  | zero =>
    intro x h
    have hx : ¬stop ≤ x := by
      intro hx
      have := h hx
      omega
    simp [frangeDownGo, hx]
  | succ n ih =>
    intro x h
    by_cases hx : stop ≤ x
    · have hk0 : 0 ≤ ⌊(x - stop) / (-step)⌋ :=
        Int.floor_nonneg.mpr (div_nonneg (by linarith) hpos.le)
      have hfloor : ⌊(x + step - stop) / (-step)⌋ = ⌊(x - stop) / (-step)⌋ - 1 := by
        have hdiv : (x + step - stop) / (-step) = (x - stop) / (-step) - 1 := by
          rw [eq_sub_iff_add_eq, show (1 : ℚ) = (-step) / (-step) from (div_self hpos.ne').symm,
            div_add_div_same]
          congr 1
          ring
        rw [hdiv, show ((1 : ℚ)) = ((1 : ℤ) : ℚ) by norm_num, Int.floor_sub_int]
      have hlhs : frangeDownGo (n + 1) x stop step =
          x :: frangeDownGo n (x + step) stop step := by
        simp only [frangeDownGo]
        rw [if_pos hx]
      rw [hlhs, if_pos hx, List.range_succ_eq_map, List.map_cons, List.map_map]
      by_cases hx2 : stop ≤ x + step
      · have hfuel : stop ≤ x + step → (⌊(x + step - stop) / (-step)⌋).toNat + 1 ≤ n := by
          intro _
          have := h hx
          have hk1 : 1 ≤ ⌊(x - stop) / (-step)⌋ := by
            have h0 : 0 ≤ ⌊(x + step - stop) / (-step)⌋ :=
              Int.floor_nonneg.mpr (div_nonneg (by linarith) hpos.le)
            omega
          rw [hfloor]
          omega
        have hk1 : 1 ≤ ⌊(x - stop) / (-step)⌋ := by
          have h0 : 0 ≤ ⌊(x + step - stop) / (-step)⌋ :=
            Int.floor_nonneg.mpr (div_nonneg (by linarith) hpos.le)
          omega
        rw [ih (x + step) hfuel, if_pos hx2, hfloor]
        have hnat : (⌊(x - stop) / (-step)⌋ - 1).toNat + 1 = (⌊(x - stop) / (-step)⌋).toNat := by
          omega
        rw [hnat]
        congr 1
        · norm_num
        · apply List.map_congr_left
          intro i _
          simp only [Function.comp]
          push_cast
          ring
      · have hk00 : ⌊(x - stop) / (-step)⌋ = 0 := by
          have hlt : (x - stop) / (-step) < 1 := by
            rw [div_lt_one hpos]
            have := not_le.mp hx2
            linarith
          have hfl : ⌊(x - stop) / (-step)⌋ < 1 := Int.floor_lt.mpr (by exact_mod_cast hlt)
          omega
        rw [ih (x + step) (fun hcon => absurd hcon hx2), if_neg hx2, hk00]
        simp
    · have hlhs : frangeDownGo (n + 1) x stop step = [] := by
        simp only [frangeDownGo]
        rw [if_neg hx]
      rw [hlhs, if_neg hx]
      simp

/-- `frange` with a positive step is the ascending inclusive
arithmetic sequence (empty when the start already exceeds the stop). -/
theorem frange_up_char (start stop step : ℚ) (hstep : 0 < step) :
    frange start stop step =
      (List.range (if start ≤ stop then (⌊(stop - start) / step⌋).toNat + 1 else 0)).map
        (fun i : ℕ => start + (i : ℚ) * step) := by
  rw [frange, if_pos hstep]
  exact frangeUpGo_eq stop step hstep _ start (fun _ => by rw [frangeFuel])

/-- `frange` with a negative step is the descending inclusive
arithmetic sequence (empty when the start is already below the stop). -/
theorem frange_down_char (start stop step : ℚ) (hstep : step < 0) :
    frange start stop step =
      (List.range (if stop ≤ start then (⌊(start - stop) / (-step)⌋).toNat + 1 else 0)).map
        (fun i : ℕ => start + (i : ℚ) * step) := by
  rw [frange, if_neg (not_lt.mpr hstep.le)]
  have hfuel : frangeFuel start stop step = (⌊(start - stop) / (-step)⌋).toNat + 1 := by
    rw [frangeFuel]
    have hdiv : (stop - start) / step = (start - stop) / (-step) := by
      rw [show start - stop = -(stop - start) by ring, neg_div_neg_eq]
    rw [hdiv]
  rw [hfuel]
  exact frangeDownGo_eq stop step hstep _ start (fun _ => le_refl _)

/-- C3 (amended): for a non-zero bound step, the sweep of the
execution engine is the inclusive arithmetic sequence toward the bound
end — descending by `-|step|` when `start ≥ end`, but ascending by the
*raw* bound step when `start < end`: a positive step gives the
ascending inclusive sequence, while a *negative* bound step makes the
ascending branch produce an empty sweep, so the sweep is not
independent of the sign of the bound step. -/
theorem c3_sweep (s e st : ℚ) (hst : st ≠ 0) :
    sweepValues s e st =
      if s < e then
        (if 0 < st then
          (List.range ((⌊(e - s) / st⌋).toNat + 1)).map (fun i : ℕ => s + (i : ℚ) * st)
        else [])
      else
        (List.range ((⌊(s - e) / |st|⌋).toNat + 1)).map (fun i : ℕ => s - (i : ℚ) * |st|) := by
  rw [sweepValues]
  by_cases hlt : s < e
  · rw [if_pos hlt, if_pos hlt]
    rcases hst.lt_or_lt with hneg | hpos
    · rw [if_neg (not_lt.mpr hneg.le), frange_down_char s e st hneg,
        if_neg (not_le.mpr hlt)]
      simp
    · rw [if_pos hpos, frange_up_char s e st hpos, if_pos hlt.le]
  · rw [if_neg hlt, if_neg hlt]
    have habs : -|st| < 0 := neg_neg_iff_pos.mpr (abs_pos.mpr hst)
    rw [frange_down_char s e (-|st|) habs]
    rw [if_pos (not_lt.mp hlt)]
    simp only [neg_neg]
    apply List.map_congr_left
    intro i _
    ring

/-- Witness for C3's amended theorem at the bound values
start 0, end 2, step 1. -/
theorem c3_sweep_witness :
    ((1 : ℚ) ≠ 0) ∧
    sweepValues 0 2 1 =
      (if (0 : ℚ) < 2 then
        (if (0 : ℚ) < 1 then
          (List.range ((⌊((2 : ℚ) - 0) / 1⌋).toNat + 1)).map (fun i : ℕ => 0 + (i : ℚ) * 1)
        else [])
      else
        (List.range ((⌊((0 : ℚ) - 2) / |(1 : ℚ)|⌋).toNat + 1)).map
          (fun i : ℕ => 0 - (i : ℚ) * |(1 : ℚ)|)) :=
  ⟨by norm_num, c3_sweep 0 2 1 (by norm_num)⟩

/-- C3 counterexample: with bound values start 0, end 1, step -1/4 the
claim's sweep (ascending by `|step|`, inclusive) would be
`[0, 1/4, 1/2, 3/4, 1]`, but the engine passes the raw negative step
to the ascending `frange`, which yields the empty sweep. -/
theorem c3_counterexample :
    sweepValues 0 1 (-(1 / 4)) = [] ∧
    sweepValues 0 1 (-(1 / 4)) ≠ [0, 1 / 4, 1 / 2, 3 / 4, 1] := by
  have hempty : sweepValues 0 1 (-(1 / 4)) = [] := by
    rw [sweepValues, if_pos (by norm_num), frange_down_char 0 1 (-(1 / 4)) (by norm_num),
      if_neg (by norm_num)]
    simp
  exact ⟨hempty, by rw [hempty]; simp⟩

/-- The loop of `progX` makes one step under `bindC1` (single point 0). -/
theorem loopSteps_C1 : loopSteps bindC1 loopABS = Except.ok 1 := by
  have ha : bindC1 (r"a") = some (r"0") := by decide
  have hb : bindC1 (r"b") = some (r"0") := by decide
  have hs : bindC1 (r"s") = some (r"1") := by decide
  simp only [loopSteps, loopABS, resolveFloat, ha, hb, hs, pyFloatE, pyF0, pyF1, bind,
    Except.bind]
  norm_num

/-- The pre-run pass computes 3 total steps for `progX` under
`bindC1`, resolving the parsed repeat symbol `X` to its bound value 3. -/
theorem totalSteps_C1 : totalSteps bindC1 progX = Except.ok 3 := by
  have hX : bindC1 (r"X") = some (r"3") := by decide
  simp only [totalSteps, progX, blockXloop, List.foldlM, blockSteps, resolveInt, hX, pyIntE,
    pyI3, loopSteps_C1, bind, Except.bind, pure, Except.pure]
  norm_num

/-- The sweep of the `bindC1` loop: not ascending (start = end), so
`frange` runs downward from 0 to 0 by -1, giving the single point 0. -/
theorem sweepValues_C1 : sweepValues 0 0 1 = [0] := by
  rw [sweepValues, if_neg (by norm_num), frange_down_char 0 0 (-|(1 : ℚ)|) (by norm_num),
    if_pos (by norm_num)]
  norm_num
  have h1 : List.range 1 = [0] := by decide
  rw [h1]
  simp

/-- Full evaluation of the run under `bindC1`: one pass, one sample,
progress stopping at 1/3 before the final unconditional 1. -/
theorem task_C1_eval :
    task bindC1 (instOk goodResp) progX true =
      Except.ok { setCalls := 1, readCalls := 1, stepCounter := 1,
                  sink := [(0, 1 / 10)], progress := [1 / 3, 1] } := by
  have hC : bindC1 (r"C") = none := by decide
  have ha : bindC1 (r"a") = some (r"0") := by decide
  have hb : bindC1 (r"b") = some (r"0") := by decide
  have hs : bindC1 (r"s") = some (r"1") := by decide
  have hsv : execSweepValue (instOk goodResp) 1 3 0 initState =
      Except.ok { setCalls := 1, readCalls := 1, stepCounter := 1,
                  sink := [(0, 1 / 10)], progress := [1 / 3] } := by
    simp only [execSweepValue, instOk, initState, takeReadings, readCurrent_goodResp]
    norm_num
  have hsw : execSweeps (instOk goodResp) 1 3 [0] initState =
      Except.ok { setCalls := 1, readCalls := 1, stepCounter := 1,
                  sink := [(0, 1 / 10)], progress := [1 / 3] } := by
    simp only [execSweeps, hsv]
  have hfl : execForLoop bindC1 (instOk goodResp) 3 loopABS initState =
      Except.ok { setCalls := 1, readCalls := 1, stepCounter := 1,
                  sink := [(0, 1 / 10)], progress := [1 / 3] } := by
    simp only [execForLoop, loopABS, liftE, bind, Except.bind, resolveFloat, ha, hb, hs,
      pyFloatE, pyF0, pyF1, scanCommands, sweepValues_C1, hsw]
  have hblk : execBlock bindC1 (instOk goodResp) 3 blockXloop initState =
      Except.ok { setCalls := 1, readCalls := 1, stepCounter := 1,
                  sink := [(0, 1 / 10)], progress := [1 / 3] } := by
    simp only [execBlock, blockXloop, liftE, bind, Except.bind, execRepeatVar, resolveInt,
      hC, Int.toNat_one, execCycles, execLoops, hfl]
  simp only [task, bind, Except.bind, liftE, totalSteps_C1]
  simp only [progX, execBlocks, hblk]
  simp

/-- C1: the execution pass resolves every block's cycle count from
`repeat_block.get("repeat_var", "C")`, a key the parsed dicts never
contain, so the count comes from the binding of the literal symbol
`C`, not from the block's parsed `repeats` symbol.  Under `bindC1`
(repeat symbol `X` bound to 3, `C` unbound) the pre-run pass computes
3 total steps, but the engine makes exactly one pass — one sample in
the sink and a progress report that stops at 1/3 before the final
unconditional `set(1.0)` — instead of the three passes the claim
requires. -/
theorem c1_repeat_symbol_bug :
    totalSteps bindC1 progX = Except.ok 3 ∧
    task bindC1 (instOk goodResp) progX true =
      Except.ok { setCalls := 1, readCalls := 1, stepCounter := 1,
                  sink := [(0, 1 / 10)], progress := [1 / 3, 1] } :=
  ⟨totalSteps_C1, task_C1_eval⟩

/-- One sweep value under an always-successful instrument: setpoint,
one reading of 1/10, sample appended, one progress fraction emitted. -/
theorem execSweepValue_instOk (total : Int) (htot : ¬total = 0) (V : ℚ) (st : RunState) :
    execSweepValue (instOk goodResp) 1 total V st =
      Except.ok { setCalls := st.setCalls + 1, readCalls := st.readCalls + 1,
                  stepCounter := st.stepCounter + 1,
                  sink := st.sink ++ [(V, 1 / 10)],
                  progress := st.progress ++
                    [((st.stepCounter + 1 : ℕ) : ℚ) / (total : ℚ)] } := by
  simp only [execSweepValue, instOk, takeReadings, readCurrent_goodResp]
  norm_num [htot]

/-- The sweep of the `bindC2` loop: ascending from 0 to 1 by 1. -/
theorem sweepValues_C2 : sweepValues 0 1 1 = [0, 1] := by
  rw [sweepValues, if_pos (by norm_num), frange_up_char 0 1 1 (by norm_num),
    if_pos (by norm_num)]
  norm_num
  have h2 : List.range 2 = [0, 1] := by decide
  rw [h2]
  simp

/-- One pass over the `bindC2` loop: two sweep values, two samples,
two progress fractions. -/
theorem execForLoop_C2 (total : Int) (htot : ¬total = 0) (st : RunState) :
    execForLoop bindC2 (instOk goodResp) total loopABS st =
      Except.ok { setCalls := st.setCalls + 2, readCalls := st.readCalls + 2,
                  stepCounter := st.stepCounter + 2,
                  sink := st.sink ++ [(0, 1 / 10), (1, 1 / 10)],
                  progress := st.progress ++
                    [((st.stepCounter + 1 : ℕ) : ℚ) / (total : ℚ),
                     ((st.stepCounter + 2 : ℕ) : ℚ) / (total : ℚ)] } := by
  have ha : bindC2 (r"a") = some (r"0") := by decide
  have hb : bindC2 (r"b") = some (r"1") := by decide
  have hs : bindC2 (r"s") = some (r"1") := by decide
  simp only [execForLoop, loopABS, liftE, bind, Except.bind, resolveFloat, ha, hb, hs,
    pyFloatE, pyF0, pyF1, scanCommands]
  rw [sweepValues_C2]
  simp only [execSweeps, execSweepValue_instOk total htot]
  norm_num
  ring_nf

/-- C2: the pre-run pass computes `total_steps = 2` for `progX` under
`bindC2` (repeat symbol `X` bound to 1, one two-point loop) — matching
the claim's formula — but the execution pass takes its cycle count
from the binding of the literal symbol `C` (bound to 2), so the run
makes 4 sweep steps and reports the fractions 1/2, 1, 3/2, 2 followed
by the unconditional final 1.0: the reported sequence exceeds 1,
is not monotone, and is not `1/T, ..., T/T`. -/
theorem c2_progress_bug :
    totalSteps bindC2 progX = Except.ok 2 ∧
    task bindC2 (instOk goodResp) progX true =
      Except.ok { setCalls := 4, readCalls := 4, stepCounter := 4,
                  sink := [(0, 1 / 10), (1, 1 / 10), (0, 1 / 10), (1, 1 / 10)],
                  progress := [1 / 2, 1, 3 / 2, 2, 1] } := by
  have hX : bindC2 (r"X") = some (r"1") := by decide
  have hC : bindC2 (r"C") = some (r"2") := by decide
  have ha : bindC2 (r"a") = some (r"0") := by decide
  have hb : bindC2 (r"b") = some (r"1") := by decide
  have hs : bindC2 (r"s") = some (r"1") := by decide
  have hloop : loopSteps bindC2 loopABS = Except.ok 2 := by
    simp only [loopSteps, loopABS, resolveFloat, ha, hb, hs, pyFloatE, pyF0, pyF1, bind,
      Except.bind]
    norm_num
  have htot : totalSteps bindC2 progX = Except.ok 2 := by
    simp only [totalSteps, progX, blockXloop, List.foldlM, blockSteps, resolveInt, hX,
      pyIntE, pyI1, hloop, bind, Except.bind, pure, Except.pure]
    norm_num
  refine ⟨htot, ?_⟩
  have hblk : execBlock bindC2 (instOk goodResp) 2 blockXloop initState =
      Except.ok { setCalls := 4, readCalls := 4, stepCounter := 4,
                  sink := [(0, 1 / 10), (1, 1 / 10), (0, 1 / 10), (1, 1 / 10)],
                  progress := [1 / 2, 1, 3 / 2, 2] } := by
    simp only [execBlock, blockXloop, liftE, bind, Except.bind, execRepeatVar, resolveInt,
      hC, pyIntE, pyI2, Int.toNat_ofNat, execCycles, execLoops,
      execForLoop_C2 2 (by norm_num), initState]
    norm_num
  simp only [task, bind, Except.bind, liftE, htot]
  simp only [progX, execBlocks, hblk]
  simp

/-- C4: the confirmation never gates the run.  At line 540 `run_method`
evaluates `if not continue_method:` with `continue_method` bound in no
enclosing scope, raising `NameError` before any confirmation dialog;
and inside `task` the answer collected at line 554 is stored but never
branched on, so the run proceeds identically whether the operator
answers yes or no — a negative answer does not abort, and samples are
still recorded. -/
theorem c4_confirmation_not_gated :
    (∀ text : String, run_method text = Except.error (PyErr.nameError continueMethodVar))
  ∧ (∀ (B : Bindings) (inst : Inst) (P : Program) (c1 c2 : Bool),
      task B inst P c1 = task B inst P c2)
  ∧ (∃ st : RunState,
      task bindC1 (instOk goodResp) progX false = Except.ok st ∧ st.sink ≠ []) := by
  refine ⟨fun _ => rfl, fun _ _ _ _ _ => rfl, ?_⟩
  exact ⟨_, task_C1_eval, by simp⟩

/-- A read error propagates through `readCurrent`. -/
theorem readCurrent_err (e : PyErr) : readCurrent (Except.error e) = Except.error e := rfl

/-- A successful setpoint and a successful single reading record one
sample and one progress fraction. -/
theorem execSweepValue_readOk (inst : Inst) (total : Int) (htot : ¬total = 0) (V : ℚ)
    (q : ℚ) (st : RunState) (hset : inst.set st.setCalls = Except.ok ())
    (hread : readCurrent (inst.readRaw st.readCalls) = Except.ok q) :
    execSweepValue inst 1 total V st =
      Except.ok { setCalls := st.setCalls + 1, readCalls := st.readCalls + 1,
                  stepCounter := st.stepCounter + 1,
                  sink := st.sink ++ [(V, q)],
                  progress := st.progress ++
                    [((st.stepCounter + 1 : ℕ) : ℚ) / (total : ℚ)] } := by
  simp only [execSweepValue, hset, takeReadings, hread]
  norm_num [htot]

/-- A failing single reading aborts the sweep value with the sink
untouched. -/
theorem execSweepValue_readErr (inst : Inst) (total : Int) (V : ℚ) (e : PyErr)
    (st : RunState) (hset : inst.set st.setCalls = Except.ok ())
    (hread : readCurrent (inst.readRaw st.readCalls) = Except.error e) :
    execSweepValue inst 1 total V st =
      Except.error (e, { setCalls := st.setCalls + 1, readCalls := st.readCalls + 1,
                         stepCounter := st.stepCounter, sink := st.sink,
                         progress := st.progress }) := by
  simp only [execSweepValue, hset, takeReadings, hread]

/-- A failing setpoint aborts the sweep value before any read, with
the state untouched. -/
theorem execSweepValue_setErr (inst : Inst) (total : Int) (V : ℚ) (e : PyErr)
    (st : RunState) (hset : inst.set st.setCalls = Except.error e) :
    execSweepValue inst 1 total V st = Except.error (e, st) := by
  simp only [execSweepValue, hset]

/-- Run of the sweep list against an instrument whose k-th read fails:
execution stops at the failing sweep value, the samples already
emitted stay in the sink, and the error is surfaced with its cause. -/
theorem execSweeps_readFail (e : PyErr) (resp : String) (q : ℚ)
    (hq : readCurrent (Except.ok resp) = Except.ok q) (total : Int) (htot : ¬total = 0)
    (k : ℕ) :
    ∀ (vs : List ℚ) (j : ℕ) (st : RunState), st.readCalls + j = k → 1 ≤ j →
      j ≤ vs.length →
      ∃ stF : RunState,
        execSweeps (instReadFailAt k e resp) 1 total vs st = Except.error (e, stF) ∧
        stF.sink = st.sink ++ ((vs.take (j - 1)).map (fun v => (v, q))) := by
  intro vs
  induction vs with
  | nil =>
    intro j st _ hj hjle
    simp at hjle
    omega
  | cons v rest ih =>
    intro j st hk hj hjle
    have hset : (instReadFailAt k e resp).set st.setCalls = Except.ok () := rfl
    by_cases hj1 : j = 1
    · subst hj1
      have hraw : (instReadFailAt k e resp).readRaw st.readCalls = Except.error e := by
        simp only [instReadFailAt]
        rw [if_pos (by omega)]
      have hread : readCurrent ((instReadFailAt k e resp).readRaw st.readCalls) =
          Except.error e := by
        rw [hraw, readCurrent_err]
      refine ⟨{ setCalls := st.setCalls + 1, readCalls := st.readCalls + 1,
                stepCounter := st.stepCounter, sink := st.sink, progress := st.progress },
              ?_, ?_⟩
      · simp only [execSweeps, execSweepValue_readErr _ _ _ _ _ hset hread]
      · simp
    · have hj2 : 2 ≤ j := by omega
      have hraw : (instReadFailAt k e resp).readRaw st.readCalls = Except.ok resp := by
        simp only [instReadFailAt]
        rw [if_neg (by omega)]
      have hread : readCurrent ((instReadFailAt k e resp).readRaw st.readCalls) =
          Except.ok q := by
        rw [hraw, hq]
      have hstep := execSweepValue_readOk (instReadFailAt k e resp) total htot v q st
        hset hread
      obtain ⟨stF, hrun, hsink⟩ := ih (j - 1)
        { setCalls := st.setCalls + 1, readCalls := st.readCalls + 1,
          stepCounter := st.stepCounter + 1, sink := st.sink ++ [(v, q)],
          progress := st.progress ++ [((st.stepCounter + 1 : ℕ) : ℚ) / (total : ℚ)] }
        (by change st.readCalls + 1 + (j - 1) = k; omega) (by omega)
        (by simp only [List.length_cons] at hjle; omega)
      refine ⟨stF, ?_, ?_⟩
      · simp only [execSweeps, hstep, hrun]
      · rw [hsink]
        simp only [List.append_assoc, List.singleton_append]
        have htake : (v :: rest).take (j - 1) = v :: rest.take (j - 1 - 1) := by
          have hj3 : j - 1 = (j - 2) + 1 := by omega
          rw [hj3, List.take_succ_cons]
          simp
        rw [htake]
        simp

/-- Run of the sweep list against an instrument whose k-th setpoint
fails: execution stops at the failing sweep value with the earlier
samples intact in the sink. -/
theorem execSweeps_setFail (e : PyErr) (resp : String) (q : ℚ)
    (hq : readCurrent (Except.ok resp) = Except.ok q) (total : Int) (htot : ¬total = 0)
    (k : ℕ) :
    ∀ (vs : List ℚ) (j : ℕ) (st : RunState), st.setCalls + j = k → 1 ≤ j →
      j ≤ vs.length →
      ∃ stF : RunState,
        execSweeps (instSetFailAt k e resp) 1 total vs st = Except.error (e, stF) ∧
        stF.sink = st.sink ++ ((vs.take (j - 1)).map (fun v => (v, q))) := by
  intro vs
  induction vs with
  | nil =>
    intro j st _ hj hjle
    simp at hjle
    omega
  | cons v rest ih =>
    intro j st hk hj hjle
    by_cases hj1 : j = 1
    · subst hj1
      have hset : (instSetFailAt k e resp).set st.setCalls = Except.error e := by
        simp only [instSetFailAt]
        rw [if_pos (by omega)]
      refine ⟨st, ?_, by simp⟩
      simp only [execSweeps, execSweepValue_setErr _ _ _ _ _ hset]
    · have hj2 : 2 ≤ j := by omega
      have hset : (instSetFailAt k e resp).set st.setCalls = Except.ok () := by
        simp only [instSetFailAt]
        rw [if_neg (by omega)]
      have hread : readCurrent ((instSetFailAt k e resp).readRaw st.readCalls) =
          Except.ok q := hq
      have hstep := execSweepValue_readOk (instSetFailAt k e resp) total htot v q st
        hset hread
      obtain ⟨stF, hrun, hsink⟩ := ih (j - 1)
        { setCalls := st.setCalls + 1, readCalls := st.readCalls + 1,
          stepCounter := st.stepCounter + 1, sink := st.sink ++ [(v, q)],
          progress := st.progress ++ [((st.stepCounter + 1 : ℕ) : ℚ) / (total : ℚ)] }
        (by change st.setCalls + 1 + (j - 1) = k; omega) (by omega)
        (by simp only [List.length_cons] at hjle; omega)
      refine ⟨stF, ?_, ?_⟩
      · simp only [execSweeps, hstep, hrun]
      · rw [hsink]
        simp only [List.append_assoc, List.singleton_append]
        have htake : (v :: rest).take (j - 1) = v :: rest.take (j - 1 - 1) := by
          have hj3 : j - 1 = (j - 2) + 1 := by omega
          rw [hj3, List.take_succ_cons]
          simp
        rw [htake]
        simp

/-- The pre-run pass computes 3 total steps under `bindC5` (repeat
symbol unbound, defaulting to one cycle over a three-point loop). -/
theorem totalSteps_C5 : totalSteps bindC5 progX = Except.ok 3 := by
  have hX : bindC5 (r"X") = none := by decide
  have ha : bindC5 (r"a") = some (r"0") := by decide
  have hb : bindC5 (r"b") = some (r"2") := by decide
  have hs : bindC5 (r"s") = some (r"1") := by decide
  have hloop : loopSteps bindC5 loopABS = Except.ok 3 := by
    simp only [loopSteps, loopABS, resolveFloat, ha, hb, hs, pyFloatE, pyF0, pyF2, pyF1,
      bind, Except.bind]
    norm_num
  simp only [totalSteps, progX, blockXloop, List.foldlM, blockSteps, resolveInt, hX, hloop,
    bind, Except.bind, pure, Except.pure]
  norm_num

/-- The sweep of the `bindC5` loop: ascending 0, 1, 2. -/
theorem sweepValues_C5 : sweepValues 0 2 1 = [0, 1, 2] := by
  rw [sweepValues, if_pos (by norm_num), frange_up_char 0 2 1 (by norm_num),
    if_pos (by norm_num)]
  norm_num
  have h2 : (2 : ℤ).toNat = 2 := rfl
  rw [h2]
  have h3 : List.range 3 = [0, 1, 2] := by decide
  rw [h3]
  simp

/-- Full evaluation of the `bindC5` run against an instrument whose
third read fails: the run surfaces the fault and the sink keeps
exactly the two samples already emitted. -/
theorem task_C5_eval :
    ∃ stF : RunState,
      task bindC5 (instReadFailAt 3 ioBlip goodResp) progX true =
        Except.error (ioBlip, stF) ∧
      stF.sink.length = 2 := by
  have hC : bindC5 (r"C") = none := by decide
  have ha : bindC5 (r"a") = some (r"0") := by decide
  have hb : bindC5 (r"b") = some (r"2") := by decide
  have hs : bindC5 (r"s") = some (r"1") := by decide
  obtain ⟨stF, hrun, hsink⟩ := execSweeps_readFail ioBlip goodResp (1 / 10)
    readCurrent_goodResp 3 (by norm_num) 3 [0, 1, 2] 3 initState
    (by change 0 + 3 = 3; rfl) (by norm_num) (by norm_num)
  refine ⟨stF, ?_, ?_⟩
  · simp only [task, bind, Except.bind, liftE, totalSteps_C5]
    simp only [progX, execBlocks, execBlock, blockXloop, liftE, bind, Except.bind,
      execRepeatVar, resolveInt, hC, Int.toNat_one, execCycles, execLoops, execForLoop,
      loopABS, resolveFloat, ha, hb, hs, pyFloatE, pyF0, pyF2, pyF1, scanCommands]
    rw [sweepValues_C5, hrun]
  · rw [hsink]
    simp [initState]

/-- All `r` averaging reads succeeding with the same value return the
`r`-fold replicate and advance the read counter by `r`. -/
theorem takeReadings_ok (inst : Inst) (q : ℚ) :
    ∀ (r : ℕ) (st : RunState),
      (∀ m, m < r → readCurrent (inst.readRaw (st.readCalls + m)) = Except.ok q) →
      takeReadings inst r st =
        Except.ok (List.replicate r q, { st with readCalls := st.readCalls + r }) := by
  intro r
  induction r with
  | zero =>
    intro st _
    simp [takeReadings]
  | succ n ih =>
    intro st hreads
    have h0 : readCurrent (inst.readRaw st.readCalls) = Except.ok q := by
      have := hreads 0 (by omega)
      rwa [Nat.add_zero] at this
    have hrec := ih { st with readCalls := st.readCalls + 1 } (fun m hm => by
      show readCurrent (inst.readRaw (st.readCalls + 1 + m)) = Except.ok q
      rw [show st.readCalls + 1 + m = st.readCalls + (m + 1) from by omega]
      exact hreads (m + 1) (by omega))
    simp only [takeReadings, h0, hrec, List.replicate_succ]
    rw [show st.readCalls + 1 + n = st.readCalls + (n + 1) from by omega]

/-- A failure at the `i`-th of the averaging reads aborts the whole
averaging sequence at that read: no partial list of readings — hence
no partial average — survives, and the read counter records the `i`
calls made. -/
theorem takeReadings_fail (inst : Inst) (q : ℚ) (e : PyErr) :
    ∀ (r i : ℕ) (st : RunState), 1 ≤ i → i ≤ r →
      (∀ m, m + 1 < i → readCurrent (inst.readRaw (st.readCalls + m)) = Except.ok q) →
      readCurrent (inst.readRaw (st.readCalls + (i - 1))) = Except.error e →
      takeReadings inst r st =
        Except.error (e, { st with readCalls := st.readCalls + i }) := by
  intro r
  induction r with
  | zero => intro i st hi1 hir _ _; omega
  | succ n ih =>
    intro i st hi1 hir hok hfail
    by_cases hi : i = 1
    · subst hi
      have h0 : readCurrent (inst.readRaw st.readCalls) = Except.error e := by
        have := hfail
        rwa [show st.readCalls + (1 - 1) = st.readCalls from by omega] at this
      simp only [takeReadings, h0]
    · have hi2 : 2 ≤ i := by omega
      have h0 : readCurrent (inst.readRaw st.readCalls) = Except.ok q := by
        have := hok 0 (by omega)
        rwa [Nat.add_zero] at this
      have hrec := ih (i - 1) { st with readCalls := st.readCalls + 1 } (by omega) (by omega)
        (fun m hm => by
          show readCurrent (inst.readRaw (st.readCalls + 1 + m)) = Except.ok q
          rw [show st.readCalls + 1 + m = st.readCalls + (m + 1) from by omega]
          exact hok (m + 1) (by omega))
        (by
          show readCurrent (inst.readRaw (st.readCalls + 1 + (i - 1 - 1))) = Except.error e
          rw [show st.readCalls + 1 + (i - 1 - 1) = st.readCalls + (i - 1) from by omega]
          exact hfail)
      simp only [takeReadings, h0, hrec]
      rw [show st.readCalls + 1 + (i - 1) = st.readCalls + i from by omega]

/-- One sweep value with `r` successful averaging reads of the same
value: the mean collapses to that value, one sample is recorded and
one progress fraction is emitted. -/
theorem execSweepValue_readOk_r (inst : Inst) (total : Int) (htot : ¬total = 0)
    (r : ℕ) (hr : 1 ≤ r) (V q : ℚ) (st : RunState)
    (hset : inst.set st.setCalls = Except.ok ())
    (hreads : ∀ m, m < r → readCurrent (inst.readRaw (st.readCalls + m)) = Except.ok q) :
    execSweepValue inst (r : Int) total V st =
      Except.ok { setCalls := st.setCalls + 1, readCalls := st.readCalls + r,
                  stepCounter := st.stepCounter + 1,
                  sink := st.sink ++ [(V, q)],
                  progress := st.progress ++
                    [((st.stepCounter + 1 : ℕ) : ℚ) / (total : ℚ)] } := by
  have htn : ((r : Int)).toNat = r := by omega
  have htr := takeReadings_ok inst q r { st with setCalls := st.setCalls + 1 } hreads
  have hr0 : ((r : ℚ)) ≠ 0 := Nat.cast_ne_zero.mpr (by omega)
  have hmean : (List.replicate r q).sum / ((List.replicate r q).length : ℚ) = q := by
    rw [List.sum_replicate, List.length_replicate, nsmul_eq_mul, mul_comm,
      mul_div_assoc, div_self hr0, mul_one]
  simp only [execSweepValue, hset, htn, htr]
  rw [if_neg (by simp only [List.length_replicate]; omega)]
  simp only [hmean]
  rw [if_neg htot]

/-- One sweep value whose `i`-th averaging read fails: the value is
aborted with no sample appended (the `i-1` completed readings are
discarded, not partially averaged), only the call counters advance. -/
theorem execSweepValue_readErr_r (inst : Inst) (total : Int) (r i : ℕ)
    (hi1 : 1 ≤ i) (hir : i ≤ r) (V q : ℚ) (e : PyErr) (st : RunState)
    (hset : inst.set st.setCalls = Except.ok ())
    (hok : ∀ m, m + 1 < i → readCurrent (inst.readRaw (st.readCalls + m)) = Except.ok q)
    (hfail : readCurrent (inst.readRaw (st.readCalls + (i - 1))) = Except.error e) :
    execSweepValue inst (r : Int) total V st =
      Except.error (e, { setCalls := st.setCalls + 1, readCalls := st.readCalls + i,
                         stepCounter := st.stepCounter, sink := st.sink,
                         progress := st.progress }) := by
  have htn : ((r : Int)).toNat = r := by omega
  have htr := takeReadings_fail inst q e r i { st with setCalls := st.setCalls + 1 }
    hi1 hir hok hfail
  simp only [execSweepValue, hset, htn, htr]

/-- A failing setpoint aborts the sweep value before any read
whatever the averaging count, with the state untouched. -/
theorem execSweepValue_setErr_r (inst : Inst) (rVal : Int) (total : Int) (V : ℚ)
    (e : PyErr) (st : RunState) (hset : inst.set st.setCalls = Except.error e) :
    execSweepValue inst rVal total V st = Except.error (e, st) := by
  simp only [execSweepValue, hset]

/-- Run of the sweep list with `r` averaging reads per value against
an instrument whose read number `(j-1)*r + i` (the `i`-th read of the
`j`-th sweep value) fails: the run stops inside that value's averaging
sequence, the earlier full samples stay in the sink and no partial
sample joins them. -/
theorem execSweeps_readFail_r (e : PyErr) (resp : String) (q : ℚ)
    (hq : readCurrent (Except.ok resp) = Except.ok q) (total : Int) (htot : ¬total = 0)
    (r i : ℕ) (hr : 1 ≤ r) (hi1 : 1 ≤ i) (hir : i ≤ r) (kf : ℕ) :
    ∀ (vs : List ℚ) (j : ℕ) (st : RunState),
      st.readCalls + (j - 1) * r + i = kf → 1 ≤ j → j ≤ vs.length →
      ∃ stF : RunState,
        execSweeps (instReadFailAt kf e resp) (r : Int) total vs st =
          Except.error (e, stF) ∧
        stF.sink = st.sink ++ ((vs.take (j - 1)).map (fun v => (v, q))) ∧
        stF.readCalls = st.readCalls + (j - 1) * r + i := by
  intro vs
  induction vs with
  | nil =>
    intro j st _ hj hjle
    simp at hjle
    omega
  | cons v rest ih =>
    intro j st hk hj hjle
    have hset : (instReadFailAt kf e resp).set st.setCalls = Except.ok () := rfl
    by_cases hj1 : j = 1
    · subst hj1
      have hk0 : st.readCalls + i = kf := by
        have := hk
        omega
      have hok : ∀ m, m + 1 < i →
          readCurrent ((instReadFailAt kf e resp).readRaw (st.readCalls + m)) =
            Except.ok q := by
        intro m hm
        have hne : ¬(st.readCalls + m) + 1 = kf := by omega
        have hrw : (instReadFailAt kf e resp).readRaw (st.readCalls + m) =
            Except.ok resp := by
          simp only [instReadFailAt]
          rw [if_neg hne]
        rw [hrw, hq]
      have hfail : readCurrent
          ((instReadFailAt kf e resp).readRaw (st.readCalls + (i - 1))) =
            Except.error e := by
        have heq : (st.readCalls + (i - 1)) + 1 = kf := by omega
        have hrw : (instReadFailAt kf e resp).readRaw (st.readCalls + (i - 1)) =
            Except.error e := by
          simp only [instReadFailAt]
          rw [if_pos heq]
        rw [hrw, readCurrent_err]
      have hstep := execSweepValue_readErr_r (instReadFailAt kf e resp) total r i
        hi1 hir v q e st hset hok hfail
      refine ⟨{ setCalls := st.setCalls + 1, readCalls := st.readCalls + i,
                stepCounter := st.stepCounter, sink := st.sink, progress := st.progress },
              ?_, ?_, ?_⟩
      · simp only [execSweeps, hstep]
      · simp
      · show st.readCalls + i = st.readCalls + (1 - 1) * r + i
        omega
    · have hj2 : 2 ≤ j := by omega
      have hmul : (j - 1) * r = (j - 2) * r + r := by
        rw [show j - 1 = (j - 2) + 1 from by omega, Nat.succ_mul]
      have hk2 : st.readCalls + ((j - 2) * r + r) + i = kf := by
        rw [← hmul]
        exact hk
      obtain ⟨B, hB⟩ : ∃ B, (j - 2) * r = B := ⟨_, rfl⟩
      rw [hB] at hk2 hmul
      have hok : ∀ m, m < r →
          readCurrent ((instReadFailAt kf e resp).readRaw (st.readCalls + m)) =
            Except.ok q := by
        intro m hm
        have hne : ¬(st.readCalls + m) + 1 = kf := by omega
        have hrw : (instReadFailAt kf e resp).readRaw (st.readCalls + m) =
            Except.ok resp := by
          simp only [instReadFailAt]
          rw [if_neg hne]
        rw [hrw, hq]
      have hstep := execSweepValue_readOk_r (instReadFailAt kf e resp) total htot r hr
        v q st hset hok
      obtain ⟨stF, hrun, hsink, hrc⟩ := ih (j - 1)
        { setCalls := st.setCalls + 1, readCalls := st.readCalls + r,
          stepCounter := st.stepCounter + 1, sink := st.sink ++ [(v, q)],
          progress := st.progress ++ [((st.stepCounter + 1 : ℕ) : ℚ) / (total : ℚ)] }
        (by
          show st.readCalls + r + (j - 1 - 1) * r + i = kf
          rw [show j - 1 - 1 = j - 2 from by omega, hB]
          omega)
        (by omega)
        (by simp only [List.length_cons] at hjle; omega)
      refine ⟨stF, ?_, ?_, ?_⟩
      · simp only [execSweeps, hstep, hrun]
      · rw [hsink]
        simp only [List.append_assoc, List.singleton_append]
        have htake : (v :: rest).take (j - 1) = v :: rest.take (j - 1 - 1) := by
          rw [show j - 1 = (j - 2) + 1 from by omega, List.take_succ_cons]
          simp
        rw [htake]
        simp
      · rw [hrc]
        show st.readCalls + r + (j - 1 - 1) * r + i = st.readCalls + (j - 1) * r + i
        rw [show j - 1 - 1 = j - 2 from by omega, hB, hmul]
        omega

/-- Run of the sweep list with `r` averaging reads per value against
an instrument whose `k`-th setpoint command fails: the run stops at
the `k`-th sweep value before reading, with the earlier samples intact
in the sink. -/
theorem execSweeps_setFail_r (e : PyErr) (resp : String) (q : ℚ)
    (hq : readCurrent (Except.ok resp) = Except.ok q) (total : Int) (htot : ¬total = 0)
    (r : ℕ) (hr : 1 ≤ r) (kf : ℕ) :
    ∀ (vs : List ℚ) (j : ℕ) (st : RunState), st.setCalls + j = kf → 1 ≤ j →
      j ≤ vs.length →
      ∃ stF : RunState,
        execSweeps (instSetFailAt kf e resp) (r : Int) total vs st =
          Except.error (e, stF) ∧
        stF.sink = st.sink ++ ((vs.take (j - 1)).map (fun v => (v, q))) := by
  intro vs
  induction vs with
  | nil =>
    intro j st _ hj hjle
    simp at hjle
    omega
  | cons v rest ih =>
    intro j st hk hj hjle
    by_cases hj1 : j = 1
    · subst hj1
      have hset : (instSetFailAt kf e resp).set st.setCalls = Except.error e := by
        simp only [instSetFailAt]
        rw [if_pos (by omega)]
      refine ⟨st, ?_, by simp⟩
      simp only [execSweeps, execSweepValue_setErr_r _ _ _ _ _ _ hset]
    · have hj2 : 2 ≤ j := by omega
      have hset : (instSetFailAt kf e resp).set st.setCalls = Except.ok () := by
        simp only [instSetFailAt]
        rw [if_neg (by omega)]
      have hok : ∀ m, m < r →
          readCurrent ((instSetFailAt kf e resp).readRaw (st.readCalls + m)) =
            Except.ok q := fun m _ => hq
      have hstep := execSweepValue_readOk_r (instSetFailAt kf e resp) total htot r hr
        v q st hset hok
      obtain ⟨stF, hrun, hsink⟩ := ih (j - 1)
        { setCalls := st.setCalls + 1, readCalls := st.readCalls + r,
          stepCounter := st.stepCounter + 1, sink := st.sink ++ [(v, q)],
          progress := st.progress ++ [((st.stepCounter + 1 : ℕ) : ℚ) / (total : ℚ)] }
        (by show st.setCalls + 1 + (j - 1) = kf; omega) (by omega)
        (by simp only [List.length_cons] at hjle; omega)
      refine ⟨stF, ?_, ?_⟩
      · simp only [execSweeps, hstep, hrun]
      · rw [hsink]
        simp only [List.append_assoc, List.singleton_append]
        have htake : (v :: rest).take (j - 1) = v :: rest.take (j - 1 - 1) := by
          rw [show j - 1 = (j - 2) + 1 from by omega, List.take_succ_cons]
          simp
        rw [htake]
        simp

/-- C5: an instrument failure at the k-th sweep value is fatal and
loses nothing already recorded, for any effective MEAN count r ≥ 1
(r averaging reads per sweep value): when the i-th of the k-th value's
reads fails (1 ≤ i ≤ r — in particular mid-averaging), or when the
k-th setpoint fails, the run stops with the underlying error surfaced
and the sink holding exactly the k-1 full samples already emitted — no
partial-sample average of the i-1 completed readings is appended, and
the read counter shows the abort happened at the failing read; in
particular the `bindC5` run failing on its third sweep value keeps
exactly two samples. -/
theorem c5_instrument_failure :
    (∀ (vs : List ℚ) (k r i : ℕ) (total : Int) (e : PyErr) (resp : String) (q : ℚ),
      readCurrent (Except.ok resp) = Except.ok q → ¬total = 0 →
      1 ≤ r → 1 ≤ i → i ≤ r → 1 ≤ k → k ≤ vs.length →
      ∃ stF : RunState,
        execSweeps (instReadFailAt ((k - 1) * r + i) e resp) (r : Int) total vs
            initState = Except.error (e, stF) ∧
        stF.sink = (vs.take (k - 1)).map (fun v => (v, q)) ∧
        stF.readCalls = (k - 1) * r + i)
  ∧ (∀ (vs : List ℚ) (k r : ℕ) (total : Int) (e : PyErr) (resp : String) (q : ℚ),
      readCurrent (Except.ok resp) = Except.ok q → ¬total = 0 →
      1 ≤ r → 1 ≤ k → k ≤ vs.length →
      ∃ stF : RunState,
        execSweeps (instSetFailAt k e resp) (r : Int) total vs initState =
          Except.error (e, stF) ∧
        stF.sink = (vs.take (k - 1)).map (fun v => (v, q)))
  ∧ (∃ stF : RunState,
      task bindC5 (instReadFailAt 3 ioBlip goodResp) progX true =
        Except.error (ioBlip, stF) ∧
      stF.sink.length = 2) := by
  refine ⟨?_, ?_, task_C5_eval⟩
  · intro vs k r i total e resp q hq htot hr hi1 hir hk1 hk2
    obtain ⟨stF, h1, h2, h3⟩ := execSweeps_readFail_r e resp q hq total htot r i hr
      hi1 hir ((k - 1) * r + i) vs k initState
      (by show 0 + (k - 1) * r + i = (k - 1) * r + i; rw [Nat.zero_add]) hk1 hk2
    refine ⟨stF, h1, ?_, ?_⟩
    · rw [h2]
      simp [initState]
    · rw [h3]
      show 0 + (k - 1) * r + i = (k - 1) * r + i
      rw [Nat.zero_add]
  · intro vs k r total e resp q hq htot hr hk1 hk2
    obtain ⟨stF, h1, h2⟩ := execSweeps_setFail_r e resp q hq total htot r hr k vs k
      initState (by show 0 + k = k; omega) hk1 hk2
    exact ⟨stF, h1, by rw [h2]; simp [initState]⟩

/-- Witness for C5: a genuine averaging run — three reads per sweep
value over the sweep 0, 1, 2 — whose second read of the third sweep
value (transport read number 8) fails: exactly the first two full
samples remain, and the abort happens at the failing read; plus the
setpoint variant failing on the third sweep value of the same
averaging run. -/
theorem c5_instrument_failure_witness :
    (∃ stF : RunState,
      execSweeps (instReadFailAt ((3 - 1) * 3 + 2) ioBlip goodResp) ((3 : ℕ) : Int) 3
          sweepC5 initState = Except.error (ioBlip, stF) ∧
      stF.sink = (sweepC5.take (3 - 1)).map (fun v => (v, 1 / 10)) ∧
      stF.readCalls = (3 - 1) * 3 + 2) ∧
    (∃ stF : RunState,
      execSweeps (instSetFailAt 3 ioBlip goodResp) ((3 : ℕ) : Int) 3 sweepC5 initState =
        Except.error (ioBlip, stF) ∧
      stF.sink = (sweepC5.take (3 - 1)).map (fun v => (v, 1 / 10))) :=
  ⟨c5_instrument_failure.1 sweepC5 3 3 2 3 ioBlip goodResp (1 / 10) readCurrent_goodResp
      (by norm_num) (by norm_num) (by norm_num) (by norm_num) (by norm_num)
      (by simp [sweepC5]),
    c5_instrument_failure.2.1 sweepC5 3 3 3 ioBlip goodResp (1 / 10) readCurrent_goodResp
      (by norm_num) (by norm_num) (by norm_num) (by simp [sweepC5])⟩

/-- A literal strips off its own prefix. -/
theorem stripLit_self (lit : List Char) : ∀ rest : List Char,
    stripLit lit (lit ++ rest) = some rest := by
  induction lit with
  | nil => intro rest; rfl
  | cons c lit2 ih =>
    intro rest
    simp only [List.cons_append, stripLit, if_pos rfl]
    exact ih rest

/-- `takeWhile` over a block of satisfying characters followed by a
failing one takes exactly the block. -/
theorem takeWhile_append_cons (p : Char → Bool) (a : List Char) (c : Char) (l : List Char)
    (ha : ∀ x ∈ a, p x = true) (hc : p c = false) :
    (a ++ c :: l).takeWhile p = a := by
  induction a with
  | nil => simp [List.takeWhile_cons, hc]
  | cons x a2 ih =>
    have hx := ha x (by simp)
    simp [List.takeWhile_cons, hx, ih (fun y hy => ha y (by simp [hy]))]

/-- `dropWhile` over a block of satisfying characters followed by a
failing one drops exactly the block. -/
theorem dropWhile_append_cons (p : Char → Bool) (a : List Char) (c : Char) (l : List Char)
    (ha : ∀ x ∈ a, p x = true) (hc : p c = false) :
    (a ++ c :: l).dropWhile p = c :: l := by
  induction a with
  | nil => simp [List.dropWhile_cons, hc]
  | cons x a2 ih =>
    have hx := ha x (by simp)
    simp [List.dropWhile_cons, hx, ih (fun y hy => ha y (by simp [hy]))]

/-- `takeUntilChar` cuts at the first occurrence of the stop
character. -/
theorem takeUntilChar_append (stop : Char) (a : List Char)
    (ha : ∀ x ∈ a, ¬x = stop) : ∀ rest : List Char,
    takeUntilChar stop (a ++ stop :: rest) = some (a, rest) := by
  induction a with
  | nil => intro rest; simp [takeUntilChar]
  | cons c a2 ih =>
    intro rest
    simp only [List.cons_append, takeUntilChar, if_neg (ha c (by simp)), List.append_eq]
    rw [ih (fun y hy => ha y (by simp [hy])) rest]

/-- `findBody` (the non-greedy body with `(?=:|$)` lookahead) stops
exactly at the closing brace when the body contains no colon and the
remainder starts with a colon or is empty. -/
theorem findBody_append (body : List Char) (hnc : ':' ∉ body) :
    ∀ rest : List Char, (rest = [] ∨ rest.head? = some ':') →
    findBody (body ++ '\x7d' :: rest) = some (body, rest) := by
  induction body with
  | nil =>
    intro rest hrest
    rcases hrest with h | h
    · subst h
      simp [findBody]
    · simp [findBody, h]
  | cons c body2 ih =>
    intro rest hrest
    simp only [List.cons_append, findBody, List.append_eq]
    have hcond : ¬(c = '\x7d' ∧
        (body2 ++ '\x7d' :: rest = [] ∨ (body2 ++ '\x7d' :: rest).head? = some ':')) := by
      rintro ⟨_, hd | hd⟩
      · exact absurd hd (by simp)
      · cases body2 with
        | nil => simp at hd
        | cons b bs =>
          simp at hd
          exact hnc (by simp [hd])
    rw [if_neg hcond, ih (fun hin => hnc (by simp [hin])) rest hrest]

/-- Members of a separator join come from the separator or from one of
the joined lists. -/
theorem joinSep_mem (sep : Char) : ∀ (ls : List (List Char)) (c : Char),
    c ∈ joinSep sep ls → c = sep ∨ ∃ x ∈ ls, c ∈ x := by
  intro ls
  induction ls with
  | nil => intro c hc; simp [joinSep] at hc
  | cons x ys ih =>
    intro c hc
    cases ys with
    | nil =>
      simp only [joinSep] at hc
      exact Or.inr ⟨x, by simp, hc⟩
    | cons y rest =>
      simp only [joinSep, List.mem_append, List.mem_cons] at hc
      rcases hc with hc | hc | hc
      · exact Or.inr ⟨x, by simp, hc⟩
      · exact Or.inl hc
      · rcases ih c hc with h | ⟨z, hz, hcz⟩
        · exact Or.inl h
        · exact Or.inr ⟨z, by simp [List.mem_cons] at hz ⊢; tauto, hcz⟩

/-- A well-formed name is non-empty. -/
theorem wfName_ne (s : String) (h : wfName s = true) : s.data ≠ [] := by
  simp only [wfName, Bool.and_eq_true, Bool.not_eq_true', List.isEmpty_eq_false] at h
  exact h.1

/-- A well-formed name consists of word characters. -/
theorem wfName_mem (s : String) (h : wfName s = true) :
    ∀ c ∈ s.data, isWordChar c = true := by
  simp only [wfName, Bool.and_eq_true, List.all_eq_true] at h
  exact fun c hc => h.2 c hc

/-- The REPEAT pattern matches exactly the canonical block rendering:
repeat symbol, then the brace-delimited body, provided the body has no
colon and the remainder starts with a colon or ends the text. -/
theorem matchRepeatAt_render (v : String) (body rest : List Char)
    (hv : wfName v = true) (hbody : ':' ∉ body)
    (hrest : rest = [] ∨ rest.head? = some ':') :
    matchRepeatAt (repeatLit ++ (v.data ++ ')' :: '\x7b' :: (body ++ '\x7d' :: rest))) =
      some (v, String.mk body, rest) := by
  have h1 := stripLit_self repeatLit (v.data ++ ')' :: '\x7b' :: (body ++ '\x7d' :: rest))
  have h2 : (v.data ++ ')' :: '\x7b' :: (body ++ '\x7d' :: rest)).takeWhile isWordChar =
      v.data :=
    takeWhile_append_cons _ _ _ _ (wfName_mem v hv) (by decide)
  have h3 : (v.data ++ ')' :: '\x7b' :: (body ++ '\x7d' :: rest)).dropWhile isWordChar =
      ')' :: '\x7b' :: (body ++ '\x7d' :: rest) :=
    dropWhile_append_cons _ _ _ _ (wfName_mem v hv) (by decide)
  have h4 : findBody (body ++ '\x7d' :: rest) = some (body, rest) :=
    findBody_append body hbody rest hrest
  simp only [matchRepeatAt, h1, h2, h3, h4, if_neg (wfName_ne v hv), stringMk_data]

/-- The FOR_RANGEV pattern matches exactly the canonical loop
rendering, provided the command area has no closing brace. -/
theorem matchForAt_render (a b c : String) (cmds rest : List Char)
    (hwa : wfName a = true) (hwb : wfName b = true) (hwc : wfName c = true)
    (hcm : '\x7d' ∉ cmds) :
    matchForAt (forLit ++ (a.data ++ ',' :: (b.data ++ ',' ::
        (c.data ++ ')' :: '\x7b' :: (cmds ++ '\x7d' :: rest))))) =
      some (a, b, c, String.mk cmds, rest) := by
  have hword : ∀ (s : String), wfName s = true → ∀ x ∈ s.data, ¬x = ',' := by
    intro s hs x hx he
    have := wfName_mem s hs x hx
    rw [he] at this
    simp [isWordChar] at this
  have hwp : ∀ x ∈ c.data, ¬x = ')' := by
    intro x hx he
    have := wfName_mem c hwc x hx
    rw [he] at this
    simp [isWordChar] at this
  have h1 := stripLit_self forLit
    (a.data ++ ',' :: (b.data ++ ',' :: (c.data ++ ')' :: '\x7b' :: (cmds ++ '\x7d' :: rest))))
  have h2 := takeUntilChar_append ',' a.data (hword a hwa)
    (b.data ++ ',' :: (c.data ++ ')' :: '\x7b' :: (cmds ++ '\x7d' :: rest)))
  have h3 := takeUntilChar_append ',' b.data (hword b hwb)
    (c.data ++ ')' :: '\x7b' :: (cmds ++ '\x7d' :: rest))
  have h4 := takeUntilChar_append ')' c.data hwp ('\x7b' :: (cmds ++ '\x7d' :: rest))
  have h5 := takeUntilChar_append '\x7d' cmds (fun x hx he => hcm (he ▸ hx)) rest
  simp only [matchForAt, h1, h2, h3, h4, h5, if_neg (wfName_ne a hwa),
    if_neg (wfName_ne b hwb), if_neg (wfName_ne c hwc), stringMk_data]

/-- The splitter scans through comma-free parenthesis-free text
without cutting, accumulating it (reversed). -/
theorem splitGo_plain (a : List Char)
    (h : ∀ c ∈ a, ¬c = ',' ∧ ¬c = '(' ∧ ¬c = ')') :
    ∀ cur rest, splitGo 0 cur (a ++ rest) = splitGo 0 (a.reverse ++ cur) rest := by
  induction a with
  | nil => intro cur rest; rfl
  | cons c a ih =>
    intro cur rest
    obtain ⟨hc, ho, hcl⟩ := h c (by simp)
    have step : splitGo 0 cur (c :: (a ++ rest)) = splitGo 0 (c :: cur) (a ++ rest) := by
      simp only [splitGo, if_neg ho, if_neg hcl]
      rw [if_neg]
      intro hx
      exact hc hx.1
    rw [List.cons_append, step, ih (fun d hd => h d (by simp [hd])),
      List.reverse_cons, List.append_assoc, List.singleton_append]

/-- At non-zero depth the splitter scans through parenthesis-free text
(commas included) without cutting. -/
theorem splitGo_nz (d : Int) (hd : ¬d = 0) (a : List Char)
    (h : ∀ c ∈ a, ¬c = '(' ∧ ¬c = ')') :
    ∀ cur rest, splitGo d cur (a ++ rest) = splitGo d (a.reverse ++ cur) rest := by
  induction a with
  | nil => intro cur rest; rfl
  | cons c a ih =>
    intro cur rest
    obtain ⟨ho, hcl⟩ := h c (by simp)
    have step : splitGo d cur (c :: (a ++ rest)) = splitGo d (c :: cur) (a ++ rest) := by
      simp only [splitGo, if_neg ho, if_neg hcl]
      rw [if_neg]
      intro hx
      exact hd hx.2
    rw [List.cons_append, step, ih (fun e he => h e (by simp [he])),
      List.reverse_cons, List.append_assoc, List.singleton_append]

/-- The splitter scans through a whole `name(args)` segment — word
name, parenthesis-free args — without cutting: the inner commas sit at
depth 1. -/
theorem splitGo_cmd (w inner : List Char)
    (hw : ∀ c ∈ w, ¬c = ',' ∧ ¬c = '(' ∧ ¬c = ')')
    (hi : ∀ c ∈ inner, ¬c = '(' ∧ ¬c = ')') :
    ∀ cur rest, splitGo 0 cur ((w ++ '(' :: inner ++ [')']) ++ rest) =
      splitGo 0 ((w ++ '(' :: inner ++ [')']).reverse ++ cur) rest := by
  intro cur rest
  have e1 : (w ++ '(' :: inner ++ [')']) ++ rest =
      w ++ ('(' :: (inner ++ (')' :: rest))) := by
    simp [List.append_assoc]
  have h1 : splitGo 0 cur (w ++ ('(' :: (inner ++ (')' :: rest)))) =
      splitGo 0 (w.reverse ++ cur) ('(' :: (inner ++ (')' :: rest))) :=
    splitGo_plain w hw cur _
  have h2 : splitGo 0 (w.reverse ++ cur) ('(' :: (inner ++ (')' :: rest))) =
      splitGo 1 ('(' :: (w.reverse ++ cur)) (inner ++ (')' :: rest)) := rfl
  have h3 : splitGo 1 ('(' :: (w.reverse ++ cur)) (inner ++ (')' :: rest)) =
      splitGo 1 (inner.reverse ++ ('(' :: (w.reverse ++ cur))) (')' :: rest) :=
    splitGo_nz 1 (by decide) inner hi _ _
  have h4 : splitGo 1 (inner.reverse ++ ('(' :: (w.reverse ++ cur))) (')' :: rest) =
      splitGo 0 (')' :: (inner.reverse ++ ('(' :: (w.reverse ++ cur)))) rest := rfl
  rw [e1, h1, h2, h3, h4]
  congr 1
  simp [List.append_assoc]

/-- Splitting the comma-join of segments that each scan through whole
recovers exactly the segments. -/
theorem split_commands_joinSep (ls : List (List Char))
    (hthrough : ∀ seg ∈ ls, ∀ cur rest,
      splitGo 0 cur (seg ++ rest) = splitGo 0 (seg.reverse ++ cur) rest)
    (hne : ∀ seg ∈ ls, seg ≠ []) :
    splitGo 0 [] (joinSep ',' ls) = ls.map String.mk := by
  induction ls with
  | nil => rfl
  | cons x t ih =>
    cases t with
    | nil =>
      have hx : splitGo 0 [] (x ++ []) = splitGo 0 (x.reverse ++ []) [] :=
        hthrough x (by simp) [] []
      rw [List.append_nil, List.append_nil] at hx
      have hxe : ¬x.reverse = [] := by
        simp only [List.reverse_eq_nil_iff]
        exact hne x (by simp)
      simp only [joinSep, hx, splitGo, if_neg hxe, List.reverse_reverse, List.map]
    | cons y t2 =>
      have hx : splitGo 0 [] (x ++ ',' :: joinSep ',' (y :: t2)) =
          splitGo 0 (x.reverse ++ []) (',' :: joinSep ',' (y :: t2)) :=
        hthrough x (by simp) [] _
      rw [List.append_nil] at hx
      have hcut : splitGo 0 x.reverse (',' :: joinSep ',' (y :: t2)) =
          String.mk x.reverse.reverse :: splitGo 0 [] (joinSep ',' (y :: t2)) := rfl
      rw [joinSep, hx, hcut, List.reverse_reverse,
        ih (fun seg hs => hthrough seg (by simp [hs]))
          (fun seg hs => hne seg (by simp [hs]))]
      rfl

/-- The greedy `(.*)\)` group: everything before a final `)`. -/
theorem beforeLastParen_append (args : List Char) :
    beforeLastParen (args ++ [')']) = some args := by
  simp [beforeLastParen, List.reverse_append]

/-- `matchCmd` on a canonical `name(args)` rendering recovers the name
and the args. -/
theorem matchCmd_wrapped (w args : List Char)
    (hw : ∀ c ∈ w, isWordChar c = true) (hne : w ≠ []) :
    matchCmd (String.mk (w ++ '(' :: (args ++ [')']))) =
      some (String.mk w, String.mk args) := by
  have h2 : (w ++ '(' :: (args ++ [')'])).takeWhile isWordChar = w :=
    takeWhile_append_cons _ _ _ _ hw (by decide)
  have h3 : (w ++ '(' :: (args ++ [')'])).dropWhile isWordChar =
      '(' :: (args ++ [')']) :=
    dropWhile_append_cons _ _ _ _ hw (by decide)
  simp only [matchCmd, h2, h3, if_neg hne, beforeLastParen_append args]

/-- A word character is not any fixed non-word character. -/
theorem isWordChar_ne (c d : Char) (h : isWordChar c = true)
    (hd : isWordChar d = false) : ¬c = d := by
  intro e
  rw [e, hd] at h
  cases h

/-- A command character is not any fixed non-command character. -/
theorem cmdOk_ne (c d : Char) (h : cmdOkChar c = true)
    (hd : cmdOkChar d = false) : ¬c = d := by
  intro e
  rw [e, hd] at h
  cases h

/-- Word characters are command characters. -/
theorem cmdOk_of_word (c : Char) (h : isWordChar c = true) : cmdOkChar c = true := by
  simp [cmdOkChar, h]

/-- Folding the rendered `key=value` pieces through the OUTPUT dict
builder appends the pairs in order, provided the keys are fresh and
distinct. -/
theorem foldl_parsePair (o : List (String × String)) :
    ∀ acc : List (String × String),
    (∀ kv ∈ o, wfName kv.1 = true ∧ wfName kv.2 = true) →
    (∀ kv ∈ o, ∀ kv2 ∈ acc, ¬kv2.1 = kv.1) →
    distinctKeys o = true →
    (o.map (fun kv => String.mk (kv.1.data ++ '=' :: kv.2.data))).foldl parsePair acc =
      acc ++ o := by
  induction o with
  | nil => intro acc _ _ _; simp
  | cons kv rest ih =>
    intro acc hwf hdis hd
    simp only [distinctKeys, Bool.and_eq_true, List.all_eq_true] at hd
    have htu : takeUntilChar '=' (kv.1.data ++ '=' :: kv.2.data) =
        some (kv.1.data, kv.2.data) :=
      takeUntilChar_append '=' kv.1.data
        (fun x hx => isWordChar_ne x '='
          (wfName_mem kv.1 (hwf kv (by simp)).1 x hx) (by decide)) kv.2.data
    have hany : acc.any (fun p => p.1 == kv.1) = false := by
      rw [List.any_eq_false]
      intro p hp
      simp only [beq_iff_eq]
      exact hdis kv (by simp) p hp
    have hstep : parsePair acc (String.mk (kv.1.data ++ '=' :: kv.2.data)) =
        acc ++ [kv] := by
      simp only [parsePair, htu, dictInsert, stringMk_data, hany,
        Bool.false_eq_true, if_false]
    rw [List.map_cons, List.foldl_cons, hstep,
      ih (acc ++ [kv]) (fun x hx => hwf x (by simp [hx]))
        (fun x hx kv2 hkv2 => by
          rcases List.mem_append.mp hkv2 with h2 | h2
          · exact hdis x (by simp [hx]) kv2 h2
          · have : kv2 = kv := by simpa using h2
            subst this
            have := hd.1 x hx
            simp only [Bool.not_eq_true', beq_eq_false_iff_ne, ne_eq] at this
            intro e
            exact this e.symm)
        hd.2, List.append_assoc, List.singleton_append]

/-- `parseOutputs` on the canonical rendering of a distinct-key pair
list recovers the pairs. -/
theorem parseOutputs_render (o : List (String × String))
    (hwf : ∀ kv ∈ o, wfName kv.1 = true ∧ wfName kv.2 = true)
    (hd : distinctKeys o = true) :
    parseOutputs (String.mk
      (joinSep ',' (o.map (fun kv => kv.1.data ++ '=' :: kv.2.data)))) = o := by
  have hsplit : splitGo 0 []
      (joinSep ',' (o.map (fun kv => kv.1.data ++ '=' :: kv.2.data))) =
      (o.map (fun kv => kv.1.data ++ '=' :: kv.2.data)).map String.mk := by
    refine split_commands_joinSep _ ?_ ?_
    · intro seg hs
      obtain ⟨kv, hkv, rfl⟩ := List.mem_map.mp hs
      refine splitGo_plain _ ?_
      intro c hc
      have hcw : isWordChar c = true ∨ c = '=' := by
        rcases List.mem_append.mp hc with h1 | h1
        · exact Or.inl (wfName_mem kv.1 (hwf kv hkv).1 c h1)
        · rcases List.mem_cons.mp h1 with h2 | h2
          · exact Or.inr h2
          · exact Or.inl (wfName_mem kv.2 (hwf kv hkv).2 c h2)
      rcases hcw with h1 | h1
      · exact ⟨isWordChar_ne c ',' h1 (by decide), isWordChar_ne c '(' h1 (by decide),
          isWordChar_ne c ')' h1 (by decide)⟩
      · subst h1
        refine ⟨by decide, by decide, by decide⟩
    · intro seg hs
      obtain ⟨kv, _, rfl⟩ := List.mem_map.mp hs
      simp
  have : parseOutputs (String.mk
      (joinSep ',' (o.map (fun kv => kv.1.data ++ '=' :: kv.2.data)))) =
      ((o.map (fun kv => kv.1.data ++ '=' :: kv.2.data)).map String.mk).foldl
        parsePair [] := by
    simp only [parseOutputs, split_commands, hsplit]
  rw [this, List.map_map]
  have := foldl_parsePair o [] hwf (fun kv _ kv2 h2 => absurd h2 (List.not_mem_nil kv2)) hd
  simpa using this

/-- `parseCmd` on the canonical rendering of a well-formed command
recovers the command. -/
theorem parseCmd_render (C : Command) (h : wfCommandB C = true) :
    parseCmd (String.mk (renderCommandL C)) = some C := by
  cases C with
  | mean p =>
    have hm : matchCmd (String.mk (renderCommandL (Command.mean p))) =
        some (String.mk meanWord, String.mk p.data) :=
      matchCmd_wrapped meanWord p.data (by decide) (by decide)
    simp only [parseCmd, hm]
    rw [show toUpperStr (String.mk meanWord) = ("MEAN" : String) from by decide]
    simp [stringMk_data]
  | delay p =>
    have hm : matchCmd (String.mk (renderCommandL (Command.delay p))) =
        some (String.mk delayWord, String.mk p.data) :=
      matchCmd_wrapped delayWord p.data (by decide) (by decide)
    simp only [parseCmd, hm]
    rw [show toUpperStr (String.mk delayWord) = ("DELAY" : String) from by decide]
    simp [stringMk_data]
  | outputs o =>
    simp only [wfCommandB, Bool.and_eq_true, List.all_eq_true] at h
    have hm0 := matchCmd_wrapped outputWord
      (joinSep ',' (o.map (fun kv => kv.1.data ++ '=' :: kv.2.data)))
      (by decide) (by decide)
    have hm : matchCmd (String.mk (renderCommandL (Command.outputs o))) =
        some (String.mk outputWord,
          String.mk (joinSep ',' (o.map (fun kv => kv.1.data ++ '=' :: kv.2.data)))) := hm0
    simp only [parseCmd, hm]
    rw [show toUpperStr (String.mk outputWord) = ("OUTPUT" : String) from by decide]
    rw [parseOutputs_render o (fun kv hkv => h.1 kv hkv) h.2]
    simp

/-- A rendered command is never empty. -/
theorem renderCommandL_ne (C : Command) : renderCommandL C ≠ [] := by
  cases C <;> simp [renderCommandL, meanWord, delayWord, outputWord]

/-- Every character of a rendered command is a command character. -/
theorem renderCommandL_chars (C : Command) (h : wfCommandB C = true) :
    ∀ c ∈ renderCommandL C, cmdOkChar c = true := by
  cases C with
  | mean p =>
    intro c hc
    simp only [renderCommandL] at hc
    rcases List.mem_append.mp hc with h1 | h1
    · rcases List.mem_append.mp h1 with h2 | h2
      · exact List.all_eq_true.mp (by decide : meanWord.all cmdOkChar = true) c h2
      · rcases List.mem_cons.mp h2 with rfl | h3
        · decide
        · exact cmdOk_of_word c (wfName_mem p h c h3)
    · rcases List.mem_singleton.mp h1 with rfl
      decide
  | delay p =>
    intro c hc
    simp only [renderCommandL] at hc
    rcases List.mem_append.mp hc with h1 | h1
    · rcases List.mem_append.mp h1 with h2 | h2
      · exact List.all_eq_true.mp (by decide : delayWord.all cmdOkChar = true) c h2
      · rcases List.mem_cons.mp h2 with rfl | h3
        · decide
        · exact cmdOk_of_word c (wfName_mem p h c h3)
    · rcases List.mem_singleton.mp h1 with rfl
      decide
  | outputs o =>
    simp only [wfCommandB, Bool.and_eq_true, List.all_eq_true] at h
    intro c hc
    simp only [renderCommandL] at hc
    rcases List.mem_append.mp hc with h1 | h1
    · rcases List.mem_append.mp h1 with h2 | h2
      · exact List.all_eq_true.mp (by decide : outputWord.all cmdOkChar = true) c h2
      · rcases List.mem_cons.mp h2 with rfl | h3
        · decide
        · rcases joinSep_mem ',' _ c h3 with h4 | ⟨x, hx, h4⟩
          · subst h4; decide
          · obtain ⟨kv, hkv, rfl⟩ := List.mem_map.mp hx
            rcases List.mem_append.mp h4 with h5 | h5
            · exact cmdOk_of_word c (wfName_mem kv.1 (h.1 kv hkv).1 c h5)
            · rcases List.mem_cons.mp h5 with rfl | h6
              · decide
              · exact cmdOk_of_word c (wfName_mem kv.2 (h.1 kv hkv).2 c h6)
    · rcases List.mem_singleton.mp h1 with rfl
      decide

/-- The splitter scans through a whole rendered command without
cutting. -/
theorem renderCommandL_through (C : Command) (h : wfCommandB C = true) :
    ∀ cur rest, splitGo 0 cur (renderCommandL C ++ rest) =
      splitGo 0 ((renderCommandL C).reverse ++ cur) rest := by
  cases C with
  | mean p =>
    have hp : ∀ c ∈ p.data, ¬c = '(' ∧ ¬c = ')' := by
      intro c hc
      have hw := wfName_mem p h c hc
      exact ⟨isWordChar_ne c '(' hw (by decide), isWordChar_ne c ')' hw (by decide)⟩
    exact splitGo_cmd meanWord p.data (by decide) hp
  | delay p =>
    have hp : ∀ c ∈ p.data, ¬c = '(' ∧ ¬c = ')' := by
      intro c hc
      have hw := wfName_mem p h c hc
      exact ⟨isWordChar_ne c '(' hw (by decide), isWordChar_ne c ')' hw (by decide)⟩
    exact splitGo_cmd delayWord p.data (by decide) hp
  | outputs o =>
    simp only [wfCommandB, Bool.and_eq_true, List.all_eq_true] at h
    refine splitGo_cmd outputWord _ (by decide) ?_
    intro c hc
    rcases joinSep_mem ',' _ c hc with h2 | ⟨x, hx, h2⟩
    · subst h2; exact ⟨by decide, by decide⟩
    · obtain ⟨kv, hkv, rfl⟩ := List.mem_map.mp hx
      rcases List.mem_append.mp h2 with h3 | h3
      · have hw := wfName_mem kv.1 (h.1 kv hkv).1 c h3
        exact ⟨isWordChar_ne c '(' hw (by decide), isWordChar_ne c ')' hw (by decide)⟩
      · rcases List.mem_cons.mp h3 with rfl | h4
        · exact ⟨by decide, by decide⟩
        · have hw := wfName_mem kv.2 (h.1 kv hkv).2 c h4
          exact ⟨isWordChar_ne c '(' hw (by decide), isWordChar_ne c ')' hw (by decide)⟩

/-- Splitting a rendered command list recovers the command
substrings. -/
theorem split_body_render (cmds : List Command)
    (h : ∀ C ∈ cmds, wfCommandB C = true) :
    split_commands (String.mk (joinSep ',' (cmds.map renderCommandL))) =
      (cmds.map renderCommandL).map String.mk := by
  refine split_commands_joinSep _ ?_ ?_
  · intro seg hs
    obtain ⟨C, hC, rfl⟩ := List.mem_map.mp hs
    exact renderCommandL_through C (h C hC)
  · intro seg hs
    obtain ⟨C, _, rfl⟩ := List.mem_map.mp hs
    exact renderCommandL_ne C

/-- Parsing the rendered command substrings recovers the commands. -/
theorem filterMap_parseCmd_render (cmds : List Command)
    (h : ∀ C ∈ cmds, wfCommandB C = true) :
    ((cmds.map renderCommandL).map String.mk).filterMap parseCmd = cmds := by
  induction cmds with
  | nil => rfl
  | cons C rest ih =>
    simp only [List.map_cons, List.filterMap_cons, parseCmd_render C (h C (by simp))]
    rw [ih (fun D hD => h D (by simp [hD]))]

/-- Building a `ForLoop` from the canonical match tuple recovers the
loop. -/
theorem parseForLoop_render (fl : ForLoop) (h : wfForLoopB fl = true) :
    parseForLoop (fl.start, fl.end_, fl.step,
      String.mk (joinSep ',' (fl.commands.map renderCommandL))) = fl := by
  simp only [wfForLoopB, Bool.and_eq_true, List.all_eq_true] at h
  simp only [parseForLoop]
  rw [split_body_render fl.commands (fun C hC => h.2 C hC),
    filterMap_parseCmd_render fl.commands (fun C hC => h.2 C hC)]

/-- A rendered for-loop is never empty. -/
theorem renderForLoopL_length (fl : ForLoop) : 1 ≤ (renderForLoopL fl).length := by
  simp only [renderForLoopL, List.length_append, List.length_cons]
  omega

/-- A rendered block is never empty. -/
theorem renderBlockL_length (b : RepeatBlock) : 1 ≤ (renderBlockL b).length := by
  simp only [renderBlockL, List.length_append, List.length_cons]
  omega

/-- A rendered for-loop list is at least as long as the loop list. -/
theorem flatten_render_length (loops : List ForLoop) :
    loops.length ≤ ((loops.map renderForLoopL).flatten).length := by
  induction loops with
  | nil => simp
  | cons fl rest ih =>
    simp only [List.map_cons, List.flatten_cons, List.length_append, List.length_cons]
    have h1 := renderForLoopL_length fl
    omega

/-- `matchForAt` at the head of a rendered for-loop matches exactly
it, leaving the remainder untouched. -/
theorem matchForAt_renderLoop (fl : ForLoop) (h : wfForLoopB fl = true)
    (rest : List Char) :
    matchForAt (renderForLoopL fl ++ rest) =
      some (fl.start, fl.end_, fl.step,
        String.mk (joinSep ',' (fl.commands.map renderCommandL)), rest) := by
  simp only [wfForLoopB, Bool.and_eq_true, List.all_eq_true] at h
  have hcm : '\x7d' ∉ joinSep ',' (fl.commands.map renderCommandL) := by
    intro hmem
    rcases joinSep_mem ',' _ _ hmem with h2 | ⟨x, hx, h2⟩
    · exact absurd h2 (by decide)
    · obtain ⟨C, hC, rfl⟩ := List.mem_map.mp hx
      have := renderCommandL_chars C (h.2 C hC) _ h2
      exact absurd this (by decide)
  have e1 : renderForLoopL fl ++ rest =
      forLit ++ (fl.start.data ++ ',' :: (fl.end_.data ++ ',' ::
        (fl.step.data ++ ')' :: '\x7b' ::
          (joinSep ',' (fl.commands.map renderCommandL) ++ '\x7d' :: rest)))) := by
    simp [renderForLoopL, List.append_assoc]
  rw [e1]
  exact matchForAt_render fl.start fl.end_ fl.step _ rest h.1.1.1 h.1.1.2 h.1.2 hcm

/-- One scanning step of the FOR finder on a successful match. -/
theorem findForsGo_step (fuel : Nat) (s tail : List Char) (a b c body : String)
    (hm : matchForAt s = some (a, b, c, body, tail)) (hs : s ≠ []) :
    findForsGo (fuel + 1) s = (a, b, c, body) :: findForsGo fuel tail := by
  cases s with
  | nil => exact absurd rfl hs
  | cons x xs => simp [findForsGo, hm]

/-- The FOR finder on a rendered for-loop list recovers every loop's
match tuple in order. -/
theorem findForsGo_render (loops : List ForLoop) :
    (∀ fl ∈ loops, wfForLoopB fl = true) →
    ∀ fuel, loops.length ≤ fuel →
    findForsGo fuel ((loops.map renderForLoopL).flatten) =
      loops.map (fun fl => (fl.start, fl.end_, fl.step,
        String.mk (joinSep ',' (fl.commands.map renderCommandL)))) := by
  induction loops with
  | nil =>
    intro _ fuel _
    cases fuel <;> rfl
  | cons fl rest ih =>
    intro hwf fuel hfuel
    obtain ⟨f, rfl⟩ : ∃ f, fuel = f + 1 :=
      ⟨fuel - 1, by simp only [List.length_cons] at hfuel; omega⟩
    simp only [List.map_cons, List.flatten_cons]
    have hm := matchForAt_renderLoop fl (hwf fl (by simp)) ((rest.map renderForLoopL).flatten)
    have hne : renderForLoopL fl ++ (rest.map renderForLoopL).flatten ≠ [] := by
      intro he
      have hlen := renderForLoopL_length fl
      rcases List.append_eq_nil.mp he with ⟨h1, _⟩
      rw [h1] at hlen
      simp at hlen
    rw [findForsGo_step f _ _ _ _ _ _ hm hne,
      ih (fun x hx => hwf x (by simp [hx])) f
        (by simp only [List.length_cons] at hfuel; omega)]

/-- Building a `RepeatBlock` from the canonical match pair recovers
the block. -/
theorem parseRepeatBlock_render (b : RepeatBlock) (h : wfBlockB b = true) :
    parseRepeatBlock (b.repeats,
      String.mk ((b.for_loops.map renderForLoopL).flatten)) = b := by
  simp only [wfBlockB, Bool.and_eq_true, List.all_eq_true] at h
  have hdata : (String.mk ((b.for_loops.map renderForLoopL).flatten)).data =
      (b.for_loops.map renderForLoopL).flatten := rfl
  simp only [parseRepeatBlock, hdata]
  rw [findForsGo_render b.for_loops (fun fl hfl => h.2 fl hfl) _
    (flatten_render_length b.for_loops), List.map_map]
  have hmapped : b.for_loops.map (parseForLoop ∘ (fun fl => (fl.start, fl.end_, fl.step,
      String.mk (joinSep ',' (fl.commands.map renderCommandL))))) =
      b.for_loops.map id :=
    List.map_congr_left (fun fl hfl => parseForLoop_render fl (h.2 fl hfl))
  rw [hmapped, List.map_id]

/-- Command characters are body characters. -/
theorem bodyOk_of_cmd (c : Char) (h : cmdOkChar c = true) : bodyOkChar c = true := by
  simp [bodyOkChar, h]

/-- Every character of a rendered for-loop is a body character. -/
theorem renderForLoopL_chars (fl : ForLoop) (h : wfForLoopB fl = true) :
    ∀ c ∈ renderForLoopL fl, bodyOkChar c = true := by
  simp only [wfForLoopB, Bool.and_eq_true, List.all_eq_true] at h
  intro c hc
  simp only [renderForLoopL] at hc
  rcases List.mem_append.mp hc with h1 | h1
  · rcases List.mem_append.mp h1 with h2 | h2
    · rcases List.mem_append.mp h2 with h3 | h3
      · rcases List.mem_append.mp h3 with h4 | h4
        · rcases List.mem_append.mp h4 with h5 | h5
          · exact List.all_eq_true.mp (by decide : forLit.all bodyOkChar = true) c h5
          · exact bodyOk_of_cmd c (cmdOk_of_word c (wfName_mem fl.start h.1.1.1 c h5))
        · rcases List.mem_cons.mp h4 with rfl | h5
          · decide
          · exact bodyOk_of_cmd c (cmdOk_of_word c (wfName_mem fl.end_ h.1.1.2 c h5))
      · rcases List.mem_cons.mp h3 with rfl | h4
        · decide
        · exact bodyOk_of_cmd c (cmdOk_of_word c (wfName_mem fl.step h.1.2 c h4))
    · rcases List.mem_cons.mp h2 with rfl | h3
      · decide
      · rcases List.mem_cons.mp h3 with rfl | h4
        · decide
        · rcases joinSep_mem ',' _ c h4 with h5 | ⟨x, hx, h5⟩
          · subst h5; decide
          · obtain ⟨C, hC, rfl⟩ := List.mem_map.mp hx
            exact bodyOk_of_cmd c (renderCommandL_chars C (h.2 C hC) c h5)
  · rcases List.mem_singleton.mp h1 with rfl
    decide

/-- Every character of a rendered block is a body character (in
particular no colon, no space, no newline). -/
theorem renderBlockL_chars (b : RepeatBlock) (h : wfBlockB b = true) :
    ∀ c ∈ renderBlockL b, bodyOkChar c = true := by
  simp only [wfBlockB, Bool.and_eq_true, List.all_eq_true] at h
  intro c hc
  simp only [renderBlockL] at hc
  rcases List.mem_append.mp hc with h1 | h1
  · rcases List.mem_append.mp h1 with h2 | h2
    · rcases List.mem_append.mp h2 with h3 | h3
      · exact List.all_eq_true.mp (by decide : repeatLit.all bodyOkChar = true) c h3
      · exact bodyOk_of_cmd c (cmdOk_of_word c (wfName_mem b.repeats h.1 c h3))
    · rcases List.mem_cons.mp h2 with rfl | h3
      · decide
      · rcases List.mem_cons.mp h3 with rfl | h4
        · decide
        · rcases List.mem_flatten.mp h4 with ⟨l, hl, hcl⟩
          obtain ⟨fl, hfl, rfl⟩ := List.mem_map.mp hl
          exact renderForLoopL_chars fl (h.2 fl hfl) c hcl
  · rcases List.mem_singleton.mp h1 with rfl
    decide

/-- `matchRepeatAt` at the head of a rendered block matches exactly
it, provided the remainder is empty or starts with a colon. -/
theorem matchRepeatAt_renderBlock (b : RepeatBlock) (h : wfBlockB b = true)
    (rest : List Char) (hrest : rest = [] ∨ rest.head? = some ':') :
    matchRepeatAt (renderBlockL b ++ rest) =
      some (b.repeats, String.mk ((b.for_loops.map renderForLoopL).flatten), rest) := by
  have hb : ':' ∉ (b.for_loops.map renderForLoopL).flatten := by
    intro hmem
    rcases List.mem_flatten.mp hmem with ⟨l, hl, hcl⟩
    obtain ⟨fl, hfl, rfl⟩ := List.mem_map.mp hl
    have hwfl : wfForLoopB fl = true := by
      simp only [wfBlockB, Bool.and_eq_true, List.all_eq_true] at h
      exact h.2 fl hfl
    have := renderForLoopL_chars fl hwfl _ hcl
    exact absurd this (by decide)
  have hv : wfName b.repeats = true := by
    simp only [wfBlockB, Bool.and_eq_true] at h
    exact h.1
  have e1 : renderBlockL b ++ rest =
      repeatLit ++ (b.repeats.data ++ ')' :: '\x7b' ::
        ((b.for_loops.map renderForLoopL).flatten ++ '\x7d' :: rest)) := by
    simp [renderBlockL, List.append_assoc]
  rw [e1]
  exact matchRepeatAt_render b.repeats _ rest hv hb hrest

/-- The REPEAT finder yields nothing on empty input, whatever the
fuel. -/
theorem findRepeatsGo_nil (fuel : Nat) : findRepeatsGo fuel [] = [] := by
  cases fuel <;> rfl

/-- One scanning step of the REPEAT finder on a successful match. -/
theorem findRepeatsGo_step (fuel : Nat) (s tail : List Char) (v body : String)
    (hm : matchRepeatAt s = some (v, body, tail)) (hs : s ≠ []) :
    findRepeatsGo (fuel + 1) s = (v, body) :: findRepeatsGo fuel tail := by
  cases s with
  | nil => exact absurd rfl hs
  | cons x xs => simp [findRepeatsGo, hm]

/-- The REPEAT finder skips a leading colon (the block separator never
starts a match). -/
theorem findRepeatsGo_colon (fuel : Nat) (l : List Char) :
    findRepeatsGo (fuel + 1) (':' :: l) = findRepeatsGo fuel l := by
  have hm : matchRepeatAt (':' :: l) = none := rfl
  simp [findRepeatsGo, hm]

/-- A rendered program is long enough to fuel one scan step per block
and per separator. -/
theorem renderProgramL_length (P : Program) :
    2 * P.length ≤ (joinSep ':' (P.map renderBlockL)).length + 1 := by
  induction P with
  | nil => simp
  | cons b rest ih =>
    cases rest with
    | nil =>
      have h1 := renderBlockL_length b
      have e0 : joinSep ':' (([b] : Program).map renderBlockL) = renderBlockL b := rfl
      rw [e0]
      simp only [List.length_cons, List.length_nil]
      omega
    | cons b2 t =>
      have h1 := renderBlockL_length b
      have e1 : joinSep ':' ((b :: b2 :: t).map renderBlockL) =
          renderBlockL b ++ ':' :: joinSep ':' ((b2 :: t).map renderBlockL) := rfl
      rw [e1]
      simp only [List.length_append, List.length_cons]
      simp only [List.length_cons] at ih ⊢
      omega

/-- The REPEAT finder on a rendered program recovers every block's
match pair in order. -/
theorem findRepeatsGo_render (P : Program) :
    (∀ b ∈ P, wfBlockB b = true) →
    ∀ fuel, 2 * P.length ≤ fuel + 1 →
    findRepeatsGo fuel (joinSep ':' (P.map renderBlockL)) =
      P.map (fun b => (b.repeats,
        String.mk ((b.for_loops.map renderForLoopL).flatten))) := by
  induction P with
  | nil => intro _ fuel _; cases fuel <;> rfl
  | cons b rest ih =>
    intro hwf fuel hfuel
    cases rest with
    | nil =>
      obtain ⟨f, rfl⟩ : ∃ f, fuel = f + 1 :=
        ⟨fuel - 1, by simp only [List.length_cons, List.length_nil] at hfuel; omega⟩
      have hm := matchRepeatAt_renderBlock b (hwf b (by simp)) [] (Or.inl rfl)
      rw [List.append_nil] at hm
      have hne : renderBlockL b ≠ [] := by
        intro he
        have hlen := renderBlockL_length b
        rw [he] at hlen
        simp at hlen
      have e0 : joinSep ':' (([b] : Program).map renderBlockL) = renderBlockL b := rfl
      rw [e0, findRepeatsGo_step f _ _ _ _ hm hne, findRepeatsGo_nil f]
      rfl
    | cons b2 t =>
      obtain ⟨f, rfl⟩ : ∃ f, fuel = f + 2 :=
        ⟨fuel - 2, by simp only [List.length_cons] at hfuel; omega⟩
      have hm := matchRepeatAt_renderBlock b (hwf b (by simp))
        (':' :: joinSep ':' ((b2 :: t).map renderBlockL)) (Or.inr rfl)
      have hne : renderBlockL b ++
          ':' :: joinSep ':' ((b2 :: t).map renderBlockL) ≠ [] := by
        intro he
        rcases List.append_eq_nil.mp he with ⟨h1, _⟩
        have hlen := renderBlockL_length b
        rw [h1] at hlen
        simp at hlen
      have e1 : joinSep ':' ((b :: b2 :: t).map renderBlockL) =
          renderBlockL b ++ ':' :: joinSep ':' ((b2 :: t).map renderBlockL) := rfl
      rw [e1, show f + 2 = (f + 1) + 1 from rfl,
        findRepeatsGo_step (f + 1) _ _ _ _ hm hne, findRepeatsGo_colon f _,
        ih (fun x hx => hwf x (by simp [hx])) f
          (by simp only [List.length_cons] at hfuel ⊢; omega)]
      rfl

/-- The preprocessing strip is the identity on a rendered well-formed
program: its characters exclude space and newline. -/
theorem stripSpaceNewline_render (P : Program) (h : ∀ b ∈ P, wfBlockB b = true) :
    stripSpaceNewline (renderProgram P) = renderProgram P := by
  have hall : ∀ c ∈ renderProgramL P, (!(c == ' ' || c == '\n')) = true := by
    intro c hc
    simp only [renderProgramL] at hc
    have h2 : bodyOkChar c = true ∨ c = ':' := by
      rcases joinSep_mem ':' _ c hc with h1 | ⟨x, hx, h1⟩
      · exact Or.inr h1
      · obtain ⟨b, hb, rfl⟩ := List.mem_map.mp hx
        exact Or.inl (renderBlockL_chars b (h b hb) c h1)
    rcases h2 with h1 | rfl
    · simp only [Bool.not_eq_true', Bool.or_eq_false_iff, beq_eq_false_iff_ne, ne_eq]
      exact ⟨fun e => absurd (e ▸ h1) (by decide), fun e => absurd (e ▸ h1) (by decide)⟩
    · decide
  have hdata : (renderProgram P).data = renderProgramL P := rfl
  simp only [stripSpaceNewline, hdata, renderProgram]
  congr 1
  exact List.filter_eq_self.mpr hall

/-- C7: for every source text with N top-level REPEAT blocks
separated by `:` — formalised as the canonical renderings of
well-formed Programs — `parse_process` returns exactly the N
RepeatBlocks in source order (the full Program round-trips); and the
spec's example source parses to exactly the stated one-block
Program. -/
theorem c7_parse_blocks :
    (∀ P : Program, wfProgramB P = true → parse_process (renderProgram P) = P) ∧
    parse_process srcExample = progExample := by
  constructor
  · intro P hwf
    have h : ∀ b ∈ P, wfBlockB b = true := by
      simpa [wfProgramB, List.all_eq_true] using hwf
    have hstrip := stripSpaceNewline_render P h
    simp only [parse_process, hstrip]
    have hdata : (renderProgram P).data = joinSep ':' (P.map renderBlockL) := rfl
    rw [hdata, findRepeatsGo_render P h _ (renderProgramL_length P), List.map_map]
    have hmapped : P.map (parseRepeatBlock ∘ (fun b => (b.repeats,
        String.mk ((b.for_loops.map renderForLoopL).flatten)))) = P.map id :=
      List.map_congr_left (fun b hb => parseRepeatBlock_render b (h b hb))
    rw [hmapped, List.map_id]
  · decide

/-- Witness for C7: the spec's example Program is well-formed, and the
round-trip theorem applies to it concretely. -/
theorem c7_parse_blocks_witness :
    wfProgramB progExample = true ∧
      parse_process (renderProgram progExample) = progExample :=
  ⟨by decide, c7_parse_blocks.1 progExample (by decide)⟩

end Potentiostat
